import Mathlib

/-!
Verification of the task-orchestration engine (`src/core/spawner/orchestrator.py`).

The engine drives opaque work units ("sub-agents") produced by an external
factory.  We embed the three strategies shallowly:

* `spawn_sequential` is a direct recursive translation of the Python loop.
* `spawn_parallel` is split into the eager creation loop and a small-step
  machine over phases (pending / running / done) with an explicit permit
  counter for the `asyncio.Semaphore`; an arbitrary schedule (a list of task
  indices) resolves the cooperative nondeterminism.
* `spawn_with_dependencies` is a small-step machine over per-watcher phases
  with the shared `results` mapping and `completed` set; again an arbitrary
  schedule picks which watcher advances at each suspension point.

External collaborators are parameters: factory failures are injected by a
function `Nat → Option String` (the exception message, if the creation call
raises) and each unit's `run()` outcome by `Nat → Except String SubAgentResult`
(`.error e` models `run()` raising an exception with message `e`).
-/

namespace Spawner

/-- `SubAgentResult` from `src/core/types.py` as used by the orchestrator:
a success flag, a summary string and an optional error message. -/
structure SubAgentResult where
  success : Bool
  summary : String
  error : Option String := none
  deriving DecidableEq

/-- A task specification is a Python dict; `none` models an absent key.
Keys read by the orchestrator: `description`, `task`, `model`, `context`,
`dependencies`. -/
structure TaskSpec where
  description : Option String := none
  task : Option String := none
  model : Option String := none
  context : Option String := none
  dependencies : Option (List String) := none
  deriving DecidableEq

/-- A created sub-agent, represented by the arguments the orchestrator passed
to `factory.create_agent` (the orchestrator never inspects anything else;
`run()` outcomes are parameters of the machines). -/
structure SubAgent where
  task : String
  model : Option String
  context : String
  deriving DecidableEq

instance exceptDecEq {ε α : Type} [DecidableEq ε] [DecidableEq α] :
    DecidableEq (Except ε α) := fun a b =>
  match a, b with
  | .ok x, .ok y =>
    if h : x = y then .isTrue (by rw [h])
    else .isFalse (fun hc => h (by injection hc))
  | .ok _, .error _ => .isFalse (fun hc => Except.noConfusion hc)
  | .error _, .ok _ => .isFalse (fun hc => Except.noConfusion hc)
  | .error x, .error y =>
    if h : x = y then .isTrue (by rw [h])
    else .isFalse (fun hc => h (by injection hc))

/-- Association-list lookup, modelling Python dict access. -/
def alook {α : Type} : List (String × α) → String → Option α
  | [], _ => none
  | (k, v) :: rest, id => if k = id then some v else alook rest id

/-- `task_spec.get('description', task_spec.get('task', ''))` together with the
other `create_agent` arguments, as in `spawn_parallel` (lines 46-50) and
`spawn_sequential` (lines 112-116); `ctx` is the context argument. -/
def parAgentOf (spec : TaskSpec) (ctx : String) : SubAgent :=
  { task := spec.description.getD (spec.task.getD "")
    model := spec.model
    context := ctx }

/-- The contribution of one result to `accumulated_context`
(`spawn_sequential` lines 124-126): successful results append a labeled
rendition of their summary, failed ones contribute nothing; an exception
aborts the loop so contributes nothing either. -/
def contrib : Except String SubAgentResult → String
  | .ok r => if r.success then "\n\nPrevious step result:\n" ++ r.summary else ""
  | .error _ => ""

/-- `accumulated_context` accrued by `j` tasks starting at index `idx`. -/
def chainFrom (runs : Nat → Except String SubAgentResult) (idx : Nat) : Nat → String
  | 0 => ""
  | j + 1 => chainFrom runs idx j ++ contrib (runs (idx + j))

/-- Value of a returned run outcome (only consulted when the outcome is
`.ok`). -/
def okVal : Except String SubAgentResult → SubAgentResult
  | .ok r => r
  | .error _ => { success := false, summary := "", error := none }

/-- One recorded `create_agent` call of the sequential strategy, together with
the state of the active-agent registry while that agent's `run()` was in
flight. -/
structure SeqCall where
  task : String
  model : Option String
  context : String
  regAtRun : List (String × SubAgent)
  deriving DecidableEq

/-- Observables of one `spawn_sequential` call: its outcome (`.error e` when
the call terminates by a propagated exception), the recorded factory calls,
and the final contents of `self.active_agents`. -/
structure SeqOut where
  result : Except String (List SubAgentResult)
  calls : List SeqCall
  registry : List (String × SubAgent)
  deriving DecidableEq

/-- The loop body of `spawn_sequential` (orchestrator.py lines 104-134).
`fErr idx` injects a factory exception for the `idx`-th creation; `runs idx`
is the `idx`-th unit's `run()` outcome.  Neither call sits in a
`try`/`except`, so an exception ends the loop immediately with the registry
in whatever state it had (in particular the `del` on line 129 is skipped). -/
def seqAux (fErr : Nat → Option String) (runs : Nat → Except String SubAgentResult) :
    List TaskSpec → Nat → String → List SubAgentResult → List SeqCall →
    List (String × SubAgent) → SeqOut
  | [], _, _, res, calls, reg => { result := .ok res, calls := calls, registry := reg }
  | spec :: rest, idx, acc, res, calls, reg =>
    let ctx := acc ++ "\n\n" ++ spec.context.getD ""
    match fErr idx with
    | some e => { result := .error e, calls := calls, registry := reg }
    | none =>
      let ag := parAgentOf spec ctx
      let reg1 := reg ++ [("agent_" ++ toString idx, ag)]
      let call : SeqCall :=
        { task := ag.task, model := ag.model, context := ag.context, regAtRun := reg1 }
      match runs idx with
      | .error e => { result := .error e, calls := calls ++ [call], registry := reg1 }
      | .ok r =>
        let acc1 :=
          if r.success then acc ++ "\n\nPrevious step result:\n" ++ r.summary else acc
        seqAux fErr runs rest (idx + 1) acc1 (res ++ [r]) (calls ++ [call])
          (reg1.filter (fun p => p.1 != "agent_" ++ toString idx))

/-- `Orchestrator.spawn_sequential`, starting from an empty registry. -/
def spawn_sequential (fErr : Nat → Option String)
    (runs : Nat → Except String SubAgentResult) (tasks : List TaskSpec) : SeqOut :=
  seqAux fErr runs tasks 0 "" [] [] []

/-- Expected result list of a fully successful sequential run. -/
def expResults (runs : Nat → Except String SubAgentResult) :
    List TaskSpec → Nat → List SubAgentResult
  | [], _ => []
  | _ :: rest, idx => okVal (runs idx) :: expResults runs rest (idx + 1)

/-- Expected recorded calls of a fully successful sequential run starting with
accumulated context `acc` at index `idx`. -/
def expCalls (runs : Nat → Except String SubAgentResult) :
    List TaskSpec → Nat → String → List SeqCall
  | [], _, _ => []
  | spec :: rest, idx, acc =>
    let ag := parAgentOf spec (acc ++ "\n\n" ++ spec.context.getD "")
    { task := ag.task, model := ag.model, context := ag.context,
      regAtRun := [("agent_" ++ toString idx, ag)] } ::
      expCalls runs rest (idx + 1) (acc ++ contrib (runs idx))

/-- Phase of one task of the parallel strategy: waiting on the semaphore,
inside `run()`, or finished (`.done (.error e)` when `run()` raised and the
exception was collected by `asyncio.gather(..., return_exceptions=True)`). -/
inductive PPhase where
  | pending
  | running
  | done (r : Except String SubAgentResult)
  deriving DecidableEq

/-- State of the parallel strategy between suspension points: the phase of
every task plus the free permits of the `asyncio.Semaphore`. -/
structure ParState where
  phases : List PPhase
  permits : Nat
  deriving DecidableEq

def pinit (n k : Nat) : ParState := { phases := List.replicate n PPhase.pending, permits := k }

/-- One cooperative step of `run_with_semaphore` for task `i`
(orchestrator.py lines 58-63): a pending task acquires a permit when one is
free and enters `run()`; a running task returns from `run()` (outcome
`runs i`) and releases its permit — the `async with` releases it also when
`run()` raises.  Any other choice of `i` is a no-op. -/
def pstep (runs : Nat → Except String SubAgentResult) (s : ParState) (i : Nat) : ParState :=
  match s.phases.get? i with
  | some PPhase.pending =>
    if 0 < s.permits then
      { phases := s.phases.set i PPhase.running, permits := s.permits - 1 }
    else s
  | some PPhase.running =>
    { phases := s.phases.set i (PPhase.done (runs i)), permits := s.permits + 1 }
  | _ => s

/-- Run the parallel machine under an explicit cooperative schedule. -/
def pexec (runs : Nat → Except String SubAgentResult) (sched : List Nat) (s : ParState) :
    ParState :=
  sched.foldl (pstep runs) s

def isRunning : PPhase → Bool
  | PPhase.running => true
  | _ => false

/-- `asyncio.gather` joins once every task is done and yields their outcomes
in input order (each task owns one result slot). -/
def gatherDone : List PPhase → Option (List (Except String SubAgentResult))
  | [] => some []
  | PPhase.done r :: rest => (gatherDone rest).map (fun l => r :: l)
  | _ => none

/-- The result-fixup loop of `spawn_parallel` (lines 72-82): an exception
becomes a failed `SubAgentResult`, anything else is passed through. -/
def handleOne : Except String SubAgentResult → SubAgentResult
  | .ok r => r
  | .error e =>
    { success := false, summary := "Agent failed with exception", error := some e }

/-- The eager creation loop of `spawn_parallel` (lines 44-52): create every
agent up front, registering each under `"agent_<idx>"`; a factory exception
propagates immediately, leaving the registry as it was at that point. -/
def createLoop (fErr : Nat → Option String) :
    List TaskSpec → Nat → List SubAgent → List (String × SubAgent) →
    Except (String × List (String × SubAgent)) (List SubAgent × List (String × SubAgent))
  | [], _, acc, reg => .ok (acc, reg)
  | spec :: rest, idx, acc, reg =>
    match fErr idx with
    | some e => .error (e, reg)
    | none =>
      let ag := parAgentOf spec (spec.context.getD "")
      createLoop fErr rest (idx + 1) (acc ++ [ag]) (reg ++ [("agent_" ++ toString idx, ag)])

/-- `Orchestrator.spawn_parallel`: returns `none` while the schedule has not
yet completed the batch, otherwise the call's outcome together with the final
contents of `self.active_agents` (cleared on the normal path, line 85; left
as-is when a factory exception propagates). -/
def spawn_parallel (fErr : Nat → Option String)
    (runs : Nat → Except String SubAgentResult) (sched : List Nat)
    (tasks : List TaskSpec) (k : Nat) :
    Option (Except String (List SubAgentResult) × List (String × SubAgent)) :=
  match createLoop fErr tasks 0 [] [] with
  | .error (e, reg) => some (.error e, reg)
  | .ok _ =>
    match gatherDone (pexec runs sched (pinit tasks.length k)).phases with
    | none => none
    | some outs => some (.ok (outs.map handleOne), [])

/-- Phase of one dependency-graph watcher (`execute_task`, lines 154-178):
polling for its dependencies, inside `run()` (carrying the agent it built),
finished normally, or terminated by a `run()` exception. -/
inductive DPhase where
  | polling
  | running (ag : SubAgent)
  | done (ag : SubAgent) (r : SubAgentResult)
  | failed (ag : SubAgent) (e : String)
  deriving DecidableEq

/-- Shared state of `spawn_with_dependencies`: the `results` dict, the
`completed` set, each watcher's phase, the first exception seen by the
`asyncio.gather` join, and `self.active_agents` (which this strategy never
touches). -/
structure DepsState where
  results : List (String × SubAgentResult)
  completed : List String
  phases : List (String × DPhase)
  firstErr : Option String
  active_agents : List (String × SubAgent)
  deriving DecidableEq

def keysOf {α : Type} (l : List (String × α)) : List String := l.map Prod.fst

def setPhase (l : List (String × DPhase)) (id : String) (ph : DPhase) :
    List (String × DPhase) :=
  l.map (fun p => if p.1 = id then (p.1, ph) else p)

/-- Context construction of `execute_task` (lines 161-164): start from the
spec's own context and append, for each dependency in declaration order whose
recorded result exists and succeeded, a labeled rendition of its summary. -/
def buildContext (spec : TaskSpec) (results : List (String × SubAgentResult)) : String :=
  (spec.dependencies.getD []).foldl
    (fun c dep =>
      match alook results dep with
      | some r =>
        if r.success then c ++ "\n\nDependency " ++ dep ++ " result:\n" ++ r.summary
        else c
      | none => c)
    (spec.context.getD "")

/-- The agent built by `execute_task` (lines 167-171): note the description
defaults to the empty string without consulting a `task` key. -/
def depAgentOf (spec : TaskSpec) (results : List (String × SubAgentResult)) : SubAgent :=
  { task := spec.description.getD ""
    model := spec.model
    context := buildContext spec results }

/-- The poll-loop guard (line 157): all listed dependencies are completed. -/
def depsReady (spec : TaskSpec) (completed : List String) : Bool :=
  (spec.dependencies.getD []).all (fun d => completed.contains d)

/-- One cooperative step of watcher `id`: a polling watcher whose
dependencies are all completed builds its context from the current results
and enters `run()` (otherwise it just sleeps); a running watcher returns from
`run()`, stores its result and only then marks itself completed (lines
174-176) — or, if `run()` raises, terminates exceptionally without touching
`results`/`completed`, recording the first such exception for the
`asyncio.gather` join. -/
def dstep (g : List (String × TaskSpec)) (runB : String → Except String SubAgentResult)
    (s : DepsState) (id : String) : DepsState :=
  match alook s.phases id with
  | some DPhase.polling =>
    match alook g id with
    | some spec =>
      if depsReady spec s.completed then
        { s with phases := setPhase s.phases id (DPhase.running (depAgentOf spec s.results)) }
      else s
    | none => s
  | some (DPhase.running ag) =>
    match runB id with
    | .ok r =>
      { s with results := s.results ++ [(id, r)],
               completed := s.completed ++ [id],
               phases := setPhase s.phases id (DPhase.done ag r) }
    | .error e =>
      { s with phases := setPhase s.phases id (DPhase.failed ag e),
               firstErr := match s.firstErr with | some e0 => some e0 | none => some e }
  | _ => s

/-- Run the dependency machine under an explicit cooperative schedule. -/
def dexec (g : List (String × TaskSpec)) (runB : String → Except String SubAgentResult)
    (sched : List String) (s : DepsState) : DepsState :=
  sched.foldl (dstep g runB) s

def dinit (g : List (String × TaskSpec)) (reg : List (String × SubAgent)) : DepsState :=
  { results := [], completed := [], phases := g.map (fun p => (p.1, DPhase.polling)),
    firstErr := none, active_agents := reg }

def dfinishedAt (s : DepsState) (id : String) : Bool :=
  match alook s.phases id with
  | some (DPhase.done _ _) => true
  | some (DPhase.failed _ _) => true
  | _ => false

def dstep2 (g : List (String × TaskSpec)) (runB : String → Except String SubAgentResult)
    (s : DepsState) (id : String) : DepsState :=
  dstep g runB (dstep g runB s id) id

/-- One round of the FIFO event loop: every watcher is given (up to) two
steps in submission order — wake from the poll sleep, then return from
`run()`. -/
def dround (g : List (String × TaskSpec)) (runB : String → Except String SubAgentResult)
    (s : DepsState) : DepsState :=
  (keysOf g).foldl (dstep2 g runB) s

def drounds (g : List (String × TaskSpec)) (runB : String → Except String SubAgentResult) :
    Nat → DepsState → DepsState
  | 0, s => s
  | n + 1, s => drounds g runB n (dround g runB s)

/-- Registry contents built by the creation loop of `spawn_parallel`:
`"agent_<idx+i>"` maps to the agent of the `i`-th spec. -/
def expReg : List TaskSpec → Nat → List (String × SubAgent)
  | [], _ => []
  | spec :: rest, idx =>
    ("agent_" ++ toString idx, parAgentOf spec (spec.context.getD "")) :: expReg rest (idx + 1)

def isDoneP : PPhase → Bool
  | PPhase.done _ => true
  | _ => false

/-- `run()` returned a result with `success=true`. -/
def okSucc : Except String SubAgentResult → Bool
  | .ok r => r.success
  | .error _ => false

/-- `Orchestrator.spawn_with_dependencies` driven for `fuel` rounds of the
FIFO event loop: `none` while the batch is still pending, `some (.error e)`
when the `asyncio.gather` join re-raises the first watcher exception, and
`some (.ok results)` once every watcher finished normally. -/
def spawn_with_dependencies (g : List (String × TaskSpec))
    (runB : String → Except String SubAgentResult) (fuel : Nat) :
    Option (Except String (List (String × SubAgentResult))) :=
  match (drounds g runB fuel (dinit g [])).firstErr with
  | some e => some (.error e)
  | none =>
    if (keysOf g).all (fun id => dfinishedAt (drounds g runB fuel (dinit g [])) id) then
      some (.ok (drounds g runB fuel (dinit g [])).results)
    else none

/-- Right-assoc rendition of the context contributed by a dependency list:
a completed, successful dependency contributes a labeled rendition of its
summary; a failed or unrecorded one contributes nothing. -/
def depsCtx (results : List (String × SubAgentResult)) : List String → String
  | [] => ""
  | d :: rest =>
    (match alook results d with
     | some r =>
       if r.success then "\n\nDependency " ++ d ++ " result:\n" ++ r.summary else ""
     | none => "") ++ depsCtx results rest

/-- Inductive invariant of the dependency machine, at every suspension point
of every cooperative schedule. -/
structure DInv (g : List (String × TaskSpec)) (s : DepsState) : Prop where
  keys_eq : keysOf s.phases = keysOf g
  c2d : ∀ id, id ∈ s.completed →
    ∃ ag r, alook s.phases id = some (DPhase.done ag r) ∧ alook s.results id = some r
  d2c : ∀ id ag r, alook s.phases id = some (DPhase.done ag r) →
    id ∈ s.completed ∧ alook s.results id = some r
  r2c : ∀ id r, alook s.results id = some r → id ∈ s.completed
  gate : ∀ id ph, alook s.phases id = some ph → ph ≠ DPhase.polling →
    ∀ spec, alook g id = some spec → depsReady spec s.completed = true
  rkeys_nodup : (keysOf s.results).Nodup

/-- When every unit's `run()` returns normally: no watcher ever fails and the
gather join never records an exception. -/
structure DOk (s : DepsState) : Prop where
  no_failed : ∀ id ag e, alook s.phases id ≠ some (DPhase.failed ag e)
  err_none : s.firstErr = none

/-- Upper bound of `rank` over a list of task ids. -/
def rankMax (rank : String → Nat) (l : List String) : Nat :=
  l.foldr (fun x m => max (rank x) m) 0

/-- Concrete inputs used by witnesses and counterexamples. -/
def noFail : Nat → Option String := fun _ => none

def failAt1 : Nat → Option String := fun i => if i = 1 then some "boom" else none

def twoSpecs : List TaskSpec := [{ description := some "t0" }, { description := some "t1" }]

def okRun : Nat → Except String SubAgentResult :=
  fun i => .ok { success := true, summary := "s" ++ toString i }

def schedSeq : List Nat := [0, 0, 1, 1]

def c1R : Nat → Except String SubAgentResult :=
  fun i => if i = 0 then .error "boom" else .ok { success := true, summary := "ok1" }

def c1G : List (String × TaskSpec) := [("A", { description := some "a" })]

def c1RB : String → Except String SubAgentResult := fun _ => .error "bang"

def c4R : Nat → Except String SubAgentResult :=
  fun i => if i = 0 then .error "boom" else .ok { success := false, summary := "second" }

def c4wR : Nat → Except String SubAgentResult :=
  fun i => if i = 1 then .error "kaput" else .ok { success := true, summary := "fine" }

def g5 : List (String × TaskSpec) := [("A", {})]

def okRunB : String → Except String SubAgentResult :=
  fun _ => .ok { success := true, summary := "sA" }

def gAB : List (String × TaskSpec) := [("A", {}), ("B", { dependencies := some ["A"] })]

def runAB : String → Except String SubAgentResult :=
  fun id =>
    if id = "A" then .ok { success := true, summary := "A done" }
    else .ok { success := true, summary := "B done" }

def rankAB : String → Nat := fun id => if id = "B" then 1 else 0

def c7T : List TaskSpec :=
  [{ description := some "d0", context := some "c0" },
   { description := some "d1", context := some "c1" }]

def specT : TaskSpec := { task := some "do the thing" }

def gT : List (String × TaskSpec) := [("T", specT)]

end Spawner

namespace Spawner

theorem chainFrom_zero (runs : Nat → Except String SubAgentResult) (idx : Nat) :
    chainFrom runs idx 0 = "" := rfl

theorem chainFrom_succ_left (runs : Nat → Except String SubAgentResult) :
    ∀ (j idx : Nat),
      chainFrom runs idx (j + 1) = contrib (runs idx) ++ chainFrom runs (idx + 1) j := by
  intro j
  induction j with
  | zero =>
    intro idx
    show chainFrom runs idx 0 ++ contrib (runs (idx + 0)) = _
    simp [chainFrom, String.empty_append, String.append_empty]
  | succ j ih =>
    intro idx
    show chainFrom runs idx (j + 1) ++ contrib (runs (idx + (j + 1))) = _
    rw [ih idx]
    show _ = contrib (runs idx) ++ (chainFrom runs (idx + 1) j ++ contrib (runs (idx + 1 + j)))
    rw [String.append_assoc]
    have : idx + (j + 1) = idx + 1 + j := by omega
    rw [this]

/-- Unfolding lemma: a successful sequential run appends the expected results
and calls and finishes with an empty registry. -/
theorem seqAux_ok (fErr : Nat → Option String)
    (runs : Nat → Except String SubAgentResult) :
    ∀ (tasks : List TaskSpec) (idx : Nat) (acc : String)
      (res : List SubAgentResult) (calls : List SeqCall),
      (∀ j, j < tasks.length → fErr (idx + j) = none) →
      (∀ j, j < tasks.length → (runs (idx + j)).isOk = true) →
      seqAux fErr runs tasks idx acc res calls [] =
        { result := .ok (res ++ expResults runs tasks idx),
          calls := calls ++ expCalls runs tasks idx acc,
          registry := [] } := by
  intro tasks
  induction tasks with
  | nil =>
    intro idx acc res calls _ _
    simp [seqAux, expResults, expCalls]
  | cons spec rest ih =>
    intro idx acc res calls hf hr
    have hf0 : fErr idx = none := by
      have := hf 0 (by simp)
      simpa using this
    have hr0 : (runs idx).isOk = true := by
      have := hr 0 (by simp)
      simpa using this
    obtain ⟨r, hrun⟩ : ∃ r, runs idx = .ok r := by
      cases h : runs idx with
      | ok r => exact ⟨r, rfl⟩
      | error e => rw [h] at hr0; simp [Except.isOk, Except.toBool] at hr0
    have hf' : ∀ j, j < rest.length → fErr (idx + 1 + j) = none := by
      intro j hj
      have h2 := hf (j + 1) (by simp; omega)
      have h3 : idx + 1 + j = idx + (j + 1) := by omega
      rw [h3]
      exact h2
    have hr' : ∀ j, j < rest.length → (runs (idx + 1 + j)).isOk = true := by
      intro j hj
      have h2 := hr (j + 1) (by simp; omega)
      have h3 : idx + 1 + j = idx + (j + 1) := by omega
      rw [h3]
      exact h2
    have hacc :
        (if r.success = true then acc ++ "\n\nPrevious step result:\n" ++ r.summary else acc) =
          acc ++ contrib (Except.ok r) := by
      cases hs : r.success with
      | true => simp [contrib, hs, String.append_assoc]
      | false => simp [contrib, hs, String.append_empty]
    have hIH := ih (idx + 1) (acc ++ contrib (Except.ok r)) (res ++ [r])
        (calls ++ [{ task := (parAgentOf spec (acc ++ "\n\n" ++ spec.context.getD "")).task,
                     model := (parAgentOf spec (acc ++ "\n\n" ++ spec.context.getD "")).model,
                     context := (parAgentOf spec (acc ++ "\n\n" ++ spec.context.getD "")).context,
                     regAtRun := [("agent_" ++ toString idx,
                       parAgentOf spec (acc ++ "\n\n" ++ spec.context.getD ""))] }])
        hf' hr'
    show seqAux fErr runs (spec :: rest) idx acc res calls [] = _
    simp only [seqAux, hf0, hrun, List.nil_append, List.filter, bne_self_eq_false,
      hacc]
    simp only [List.filter] at hIH ⊢
    rw [hIH]
    simp [expResults, expCalls, hrun, okVal, List.append_assoc]

theorem countP_set {α : Type} (p : α → Bool) :
    ∀ (l : List α) (i : Nat) (a b : α), l.get? i = some b →
      (l.set i a).countP p + (if p b then 1 else 0) =
        l.countP p + (if p a then 1 else 0) := by
  intro l
  induction l with
  | nil => intro i a b h; simp at h
  | cons x xs ih =>
    intro i a b h
    cases i with
    | zero =>
      simp at h
      subst h
      simp [List.set_cons_zero, List.countP_cons]
      omega
    | succ i =>
      simp only [List.set_cons_succ]
      simp only [List.get?_cons_succ] at h
      have := ih i a b h
      simp only [List.countP_cons]
      omega

theorem pstep_eq_none (runs : Nat → Except String SubAgentResult) (s : ParState) (i : Nat)
    (hg : s.phases.get? i = none) : pstep runs s i = s := by
  unfold pstep
  rw [hg]

theorem pstep_eq_acquire (runs : Nat → Except String SubAgentResult) (s : ParState) (i : Nat)
    (hg : s.phases.get? i = some PPhase.pending) (hp : 0 < s.permits) :
    pstep runs s i =
      { phases := s.phases.set i PPhase.running, permits := s.permits - 1 } := by
  unfold pstep
  rw [hg]
  exact if_pos hp

theorem pstep_eq_blocked (runs : Nat → Except String SubAgentResult) (s : ParState) (i : Nat)
    (hg : s.phases.get? i = some PPhase.pending) (hp : ¬ 0 < s.permits) :
    pstep runs s i = s := by
  unfold pstep
  rw [hg]
  exact if_neg hp

theorem pstep_eq_finish (runs : Nat → Except String SubAgentResult) (s : ParState) (i : Nat)
    (hg : s.phases.get? i = some PPhase.running) :
    pstep runs s i =
      { phases := s.phases.set i (PPhase.done (runs i)), permits := s.permits + 1 } := by
  unfold pstep
  rw [hg]

theorem pstep_eq_done (runs : Nat → Except String SubAgentResult) (s : ParState) (i : Nat)
    (r : Except String SubAgentResult) (hg : s.phases.get? i = some (PPhase.done r)) :
    pstep runs s i = s := by
  unfold pstep
  rw [hg]

theorem pstep_permits (runs : Nat → Except String SubAgentResult) (k : Nat)
    (s : ParState) (i : Nat)
    (h : s.phases.countP isRunning + s.permits = k) :
    (pstep runs s i).phases.countP isRunning + (pstep runs s i).permits = k := by
  cases hg : s.phases.get? i with
  | none => rw [pstep_eq_none runs s i hg]; exact h
  | some ph =>
    cases ph with
    | pending =>
      by_cases hp : 0 < s.permits
      · have hc := countP_set isRunning s.phases i PPhase.running PPhase.pending hg
        simp [isRunning] at hc
        rw [pstep_eq_acquire runs s i hg hp]
        simp only []
        omega
      · rw [pstep_eq_blocked runs s i hg hp]; exact h
    | running =>
      have hc := countP_set isRunning s.phases i (PPhase.done (runs i)) PPhase.running hg
      simp [isRunning] at hc
      rw [pstep_eq_finish runs s i hg]
      simp only []
      omega
    | done r => rw [pstep_eq_done runs s i r hg]; exact h

theorem pexec_permits (runs : Nat → Except String SubAgentResult) (k : Nat) :
    ∀ (sched : List Nat) (s : ParState),
      s.phases.countP isRunning + s.permits = k →
      (pexec runs sched s).phases.countP isRunning + (pexec runs sched s).permits = k := by
  intro sched
  induction sched with
  | nil => intro s h; exact h
  | cons i rest ih => intro s h; exact ih _ (pstep_permits runs k s i h)

theorem pstep_length (runs : Nat → Except String SubAgentResult) (s : ParState) (i : Nat) :
    (pstep runs s i).phases.length = s.phases.length := by
  cases hg : s.phases.get? i with
  | none => rw [pstep_eq_none runs s i hg]
  | some ph =>
    cases ph with
    | pending =>
      by_cases hp : 0 < s.permits
      · rw [pstep_eq_acquire runs s i hg hp]; simp
      · rw [pstep_eq_blocked runs s i hg hp]
    | running => rw [pstep_eq_finish runs s i hg]; simp
    | done r => rw [pstep_eq_done runs s i r hg]

theorem pexec_length (runs : Nat → Except String SubAgentResult) :
    ∀ (sched : List Nat) (s : ParState),
      (pexec runs sched s).phases.length = s.phases.length := by
  intro sched
  induction sched with
  | nil => intro s; rfl
  | cons i rest ih =>
    intro s
    have h1 : pexec runs (i :: rest) s = pexec runs rest (pstep runs s i) := rfl
    rw [h1, ih, pstep_length]

theorem pstep_done_inv (runs : Nat → Except String SubAgentResult) (s : ParState) (i : Nat)
    (h : ∀ j r, s.phases.get? j = some (PPhase.done r) → r = runs j) :
    ∀ j r, (pstep runs s i).phases.get? j = some (PPhase.done r) → r = runs j := by
  intro j r hj
  cases hg : s.phases.get? i with
  | none => rw [pstep_eq_none runs s i hg] at hj; exact h j r hj
  | some ph =>
    cases ph with
    | pending =>
      by_cases hp : 0 < s.permits
      · rw [pstep_eq_acquire runs s i hg hp] at hj
        by_cases hij : i = j
        · subst hij
          obtain ⟨hlt, _⟩ := List.get?_eq_some.mp hg
          rw [List.get?_set_eq_of_lt _ hlt] at hj
          exact absurd hj (by simp)
        · rw [List.get?_set_ne _ _ hij] at hj
          exact h j r hj
      · rw [pstep_eq_blocked runs s i hg hp] at hj; exact h j r hj
    | running =>
      rw [pstep_eq_finish runs s i hg] at hj
      by_cases hij : i = j
      · subst hij
        obtain ⟨hlt, _⟩ := List.get?_eq_some.mp hg
        rw [List.get?_set_eq_of_lt _ hlt] at hj
        have h1 : PPhase.done (runs i) = PPhase.done r := by injection hj
        injection h1 with h2
        exact h2.symm
      · rw [List.get?_set_ne _ _ hij] at hj
        exact h j r hj
    | done r0 => rw [pstep_eq_done runs s i r0 hg] at hj; exact h j r hj

theorem pexec_done_inv (runs : Nat → Except String SubAgentResult) :
    ∀ (sched : List Nat) (s : ParState),
      (∀ j r, s.phases.get? j = some (PPhase.done r) → r = runs j) →
      ∀ j r, (pexec runs sched s).phases.get? j = some (PPhase.done r) → r = runs j := by
  intro sched
  induction sched with
  | nil => intro s h; exact h
  | cons i rest ih => intro s h; exact ih _ (pstep_done_inv runs s i h)

theorem gatherDone_some :
    ∀ (phases : List PPhase), phases.all isDoneP = true →
      ∃ outs, gatherDone phases = some outs := by
  intro phases
  induction phases with
  | nil => intro _; exact ⟨[], rfl⟩
  | cons ph rest ih =>
    intro h
    simp only [List.all_cons, Bool.and_eq_true] at h
    obtain ⟨h1, h2⟩ := h
    obtain ⟨outs, houts⟩ := ih h2
    cases ph with
    | done r => exact ⟨r :: outs, by simp [gatherDone, houts]⟩
    | pending => simp [isDoneP] at h1
    | running => simp [isDoneP] at h1

theorem gatherDone_length :
    ∀ (phases : List PPhase) (outs : List (Except String SubAgentResult)),
      gatherDone phases = some outs → outs.length = phases.length := by
  intro phases
  induction phases with
  | nil =>
    intro outs h
    simp [gatherDone] at h
    simp [← h]
  | cons ph rest ih =>
    intro outs h
    cases ph with
    | done r =>
      simp only [gatherDone, Option.map_eq_some'] at h
      obtain ⟨l, hl, hout⟩ := h
      subst hout
      simp [ih l hl]
    | pending => simp [gatherDone] at h
    | running => simp [gatherDone] at h

theorem gatherDone_get? :
    ∀ (phases : List PPhase) (outs : List (Except String SubAgentResult)),
      gatherDone phases = some outs →
      ∀ (i : Nat) (r : Except String SubAgentResult),
        phases.get? i = some (PPhase.done r) → outs.get? i = some r := by
  intro phases
  induction phases with
  | nil => intro outs _ i r hi; simp at hi
  | cons ph rest ih =>
    intro outs h i r hi
    cases ph with
    | done r0 =>
      simp only [gatherDone, Option.map_eq_some'] at h
      obtain ⟨l, hl, hout⟩ := h
      subst hout
      cases i with
      | zero =>
        simp at hi
        simp [← hi]
      | succ i =>
        simp only [List.get?_cons_succ] at hi ⊢
        exact ih l hl i r hi
    | pending => simp [gatherDone] at h
    | running => simp [gatherDone] at h

theorem createLoop_ok (fErr : Nat → Option String) :
    ∀ (tasks : List TaskSpec) (idx : Nat) (acc : List SubAgent)
      (reg : List (String × SubAgent)),
      (∀ j, j < tasks.length → fErr (idx + j) = none) →
      createLoop fErr tasks idx acc reg =
        .ok (acc ++ tasks.map (fun spec => parAgentOf spec (spec.context.getD "")),
             reg ++ expReg tasks idx) := by
  intro tasks
  induction tasks with
  | nil => intro idx acc reg _; simp [createLoop, expReg]
  | cons spec rest ih =>
    intro idx acc reg hf
    have hf0 : fErr idx = none := by simpa using hf 0 (by simp)
    have hf' : ∀ j, j < rest.length → fErr (idx + 1 + j) = none := by
      intro j hj
      have h2 := hf (j + 1) (by simp; omega)
      have h3 : idx + 1 + j = idx + (j + 1) := by omega
      rw [h3]; exact h2
    simp only [createLoop, hf0]
    rw [ih (idx + 1) _ _ hf']
    simp [expReg, List.append_assoc]

theorem createLoop_err (fErr : Nat → Option String) (e : String) :
    ∀ (tasks : List TaskSpec) (j idx : Nat) (acc : List SubAgent)
      (reg : List (String × SubAgent)),
      j < tasks.length → (∀ i, i < j → fErr (idx + i) = none) → fErr (idx + j) = some e →
      createLoop fErr tasks idx acc reg = .error (e, reg ++ expReg (tasks.take j) idx) := by
  intro tasks
  induction tasks with
  | nil => intro j idx acc reg hj _ _; simp at hj
  | cons spec rest ih =>
    intro j idx acc reg hj hok he
    cases j with
    | zero =>
      simp at he
      simp [createLoop, he, expReg]
    | succ j =>
      have hf0 : fErr idx = none := by simpa using hok 0 (by omega)
      have hok' : ∀ i, i < j → fErr (idx + 1 + i) = none := by
        intro i hi
        have h2 := hok (i + 1) (by omega)
        have h3 : idx + 1 + i = idx + (i + 1) := by omega
        rw [h3]; exact h2
      have he' : fErr (idx + 1 + j) = some e := by
        have h3 : idx + 1 + j = idx + (j + 1) := by omega
        rw [h3]; exact he
      simp only [createLoop, hf0]
      rw [ih j (idx + 1) _ _ (by simpa using hj) hok' he']
      simp [expReg, List.append_assoc]

theorem expReg_length : ∀ (tasks : List TaskSpec) (idx : Nat),
    (expReg tasks idx).length = tasks.length := by
  intro tasks
  induction tasks with
  | nil => intro idx; rfl
  | cons spec rest ih => intro idx; simp [expReg, ih]

theorem expReg_get? : ∀ (tasks : List TaskSpec) (idx i : Nat) (spec : TaskSpec),
    tasks.get? i = some spec →
    (expReg tasks idx).get? i =
      some ("agent_" ++ toString (idx + i), parAgentOf spec (spec.context.getD "")) := by
  intro tasks
  induction tasks with
  | nil => intro idx i spec h; simp at h
  | cons spec0 rest ih =>
    intro idx i spec h
    cases i with
    | zero =>
      simp at h
      simp [expReg, ← h]
    | succ i =>
      simp only [List.get?_cons_succ] at h
      have := ih (idx + 1) i spec h
      simp only [expReg, List.get?_cons_succ]
      rw [this]
      have h3 : idx + 1 + i = idx + (i + 1) := by omega
      rw [h3]

theorem spawn_parallel_complete (fErr : Nat → Option String)
    (runs : Nat → Except String SubAgentResult) (sched : List Nat)
    (tasks : List TaskSpec) (k : Nat)
    (hc : ∀ j, j < tasks.length → fErr j = none)
    (hdone : ((pexec runs sched (pinit tasks.length k)).phases.all isDoneP) = true) :
    spawn_parallel fErr runs sched tasks k =
      some (.ok ((List.range tasks.length).map (fun j => handleOne (runs j))), []) := by
  have hcl := createLoop_ok fErr tasks 0 [] [] (by simpa using hc)
  have hlen : (pexec runs sched (pinit tasks.length k)).phases.length = tasks.length := by
    rw [pexec_length]; simp [pinit]
  have hdoneAt : ∀ j, j < tasks.length →
      (pexec runs sched (pinit tasks.length k)).phases.get? j =
        some (PPhase.done (runs j)) := by
    intro j hj
    have hj' : j < (pexec runs sched (pinit tasks.length k)).phases.length := by omega
    have hget := List.get?_eq_get hj'
    set ph := (pexec runs sched (pinit tasks.length k)).phases.get ⟨j, hj'⟩ with hph
    have hmem : ph ∈ (pexec runs sched (pinit tasks.length k)).phases := by
      rw [hph]; exact List.get_mem _ _ _
    have hd : isDoneP ph = true := (List.all_eq_true.mp hdone) ph hmem
    cases hph2 : ph with
    | pending => rw [hph2] at hd; simp [isDoneP] at hd
    | running => rw [hph2] at hd; simp [isDoneP] at hd
    | done r =>
      rw [hph2] at hget
      have hr : r = runs j := by
        apply pexec_done_inv runs sched (pinit tasks.length k) _ j r hget
        intro j0 r0 h0
        simp only [pinit] at h0
        have hmem0 := List.get?_mem h0
        have heq := List.eq_of_mem_replicate hmem0
        exact absurd heq (by simp)
      rw [← hr]
      exact hget
  obtain ⟨outs, houts⟩ := gatherDone_some _ hdone
  have hL := gatherDone_length _ _ houts
  have houts_eq : outs = (List.range tasks.length).map runs := by
    apply List.ext
    intro i
    by_cases hi : i < tasks.length
    · rw [gatherDone_get? _ _ houts i _ (hdoneAt i hi), List.get?_map,
        List.get?_range hi]
      rfl
    · have h1 : outs.get? i = none := List.get?_eq_none.mpr (by omega)
      have h2 : ((List.range tasks.length).map runs).get? i = none :=
        List.get?_eq_none.mpr (by simp; omega)
      rw [h1, h2]
  unfold spawn_parallel
  rw [hcl]
  simp only [houts, houts_eq, List.map_map]
  rfl

theorem alook_append_some {α : Type} :
    ∀ (l l2 : List (String × α)) (id : String) (v : α),
      alook l id = some v → alook (l ++ l2) id = some v := by
  intro l
  induction l with
  | nil => intro l2 id v h; simp [alook] at h
  | cons p rest ih =>
    intro l2 id v h
    obtain ⟨k, w⟩ := p
    by_cases hk : k = id
    · simp [alook, hk] at h ⊢; exact h
    · simp [alook, hk] at h ⊢; exact ih l2 id v h

theorem alook_append_none {α : Type} :
    ∀ (l l2 : List (String × α)) (id : String),
      alook l id = none → alook (l ++ l2) id = alook l2 id := by
  intro l
  induction l with
  | nil => intro l2 id _; rfl
  | cons p rest ih =>
    intro l2 id h
    obtain ⟨k, w⟩ := p
    by_cases hk : k = id
    · simp [alook, hk] at h
    · simp [alook, hk] at h ⊢; exact ih l2 id h

theorem alook_singleton {α : Type} (k id : String) (v : α) :
    alook [(k, v)] id = if k = id then some v else none := rfl

theorem alook_isSome_of_mem {α : Type} :
    ∀ (l : List (String × α)) (id : String), id ∈ keysOf l →
      ∃ v, alook l id = some v := by
  intro l
  induction l with
  | nil => intro id h; simp [keysOf] at h
  | cons p rest ih =>
    intro id h
    obtain ⟨k, w⟩ := p
    by_cases hk : k = id
    · exact ⟨w, by simp [alook, hk]⟩
    · simp [keysOf] at h
      rcases h with h | h
      · exact absurd h.symm hk
      · obtain ⟨v, hv⟩ := ih id (by simpa [keysOf] using h)
        exact ⟨v, by simp [alook, hk, hv]⟩

theorem mem_of_alook_some {α : Type} :
    ∀ (l : List (String × α)) (id : String) (v : α),
      alook l id = some v → (id, v) ∈ l := by
  intro l
  induction l with
  | nil => intro id v h; simp [alook] at h
  | cons p rest ih =>
    intro id v h
    obtain ⟨k, w⟩ := p
    by_cases hk : k = id
    · simp [alook, hk] at h
      subst hk
      simp [← h]
    · simp [alook, hk] at h
      exact List.mem_cons_of_mem _ (ih id v h)

theorem mem_keys_of_alook_some {α : Type} (l : List (String × α)) (id : String) (v : α)
    (h : alook l id = some v) : id ∈ keysOf l := by
  have := mem_of_alook_some l id v h
  simpa [keysOf] using List.mem_map_of_mem Prod.fst this

theorem alook_none_of_not_mem {α : Type} (l : List (String × α)) (id : String)
    (h : id ∉ keysOf l) : alook l id = none := by
  cases ha : alook l id with
  | none => rfl
  | some v => exact absurd (mem_keys_of_alook_some l id v ha) h

theorem not_mem_keys_of_alook_none {α : Type} (l : List (String × α)) (id : String)
    (h : alook l id = none) : id ∉ keysOf l := by
  intro hmem
  obtain ⟨v, hv⟩ := alook_isSome_of_mem l id hmem
  rw [h] at hv
  exact Option.noConfusion hv

theorem keysOf_setPhase :
    ∀ (l : List (String × DPhase)) (id : String) (ph : DPhase),
      keysOf (setPhase l id ph) = keysOf l := by
  intro l
  induction l with
  | nil => intro id ph; rfl
  | cons p rest ih =>
    intro id ph
    obtain ⟨k, w⟩ := p
    by_cases hk : k = id
    · simp [setPhase, keysOf, hk] at ih ⊢
      exact ih id ph
    · simp [setPhase, keysOf, hk] at ih ⊢
      exact ih id ph

theorem setPhase_cons (k : String) (w : DPhase) (rest : List (String × DPhase))
    (id : String) (ph : DPhase) :
    setPhase ((k, w) :: rest) id ph =
      (if k = id then (k, ph) else (k, w)) :: setPhase rest id ph := by
  by_cases hk : k = id
  · simp [setPhase, hk]
  · simp [setPhase, hk]

theorem alook_setPhase_self :
    ∀ (l : List (String × DPhase)) (id : String) (ph q : DPhase),
      alook l id = some q → alook (setPhase l id ph) id = some ph := by
  intro l
  induction l with
  | nil => intro id ph q h; simp [alook] at h
  | cons p rest ih =>
    intro id ph q h
    obtain ⟨k, w⟩ := p
    rw [setPhase_cons]
    by_cases hk : k = id
    · rw [if_pos hk]
      simp [alook, hk]
    · rw [if_neg hk]
      simp [alook, hk] at h ⊢
      exact ih id ph q h

theorem alook_setPhase_ne :
    ∀ (l : List (String × DPhase)) (id id' : String) (ph : DPhase), id' ≠ id →
      alook (setPhase l id ph) id' = alook l id' := by
  intro l
  induction l with
  | nil => intro id id' ph _; rfl
  | cons p rest ih =>
    intro id id' ph hne
    obtain ⟨k, w⟩ := p
    rw [setPhase_cons]
    by_cases hk : k = id
    · have hk' : ¬ k = id' := by rw [hk]; exact fun hc => hne hc.symm
      rw [if_pos hk]
      simp [alook, hk']
      exact ih id id' ph hne
    · rw [if_neg hk]
      by_cases hk2 : k = id'
      · simp [alook, hk2]
      · simp [alook, hk2]
        exact ih id id' ph hne

theorem dstep_eq_nophase (g : List (String × TaskSpec))
    (runB : String → Except String SubAgentResult) (s : DepsState) (id : String)
    (h : alook s.phases id = none) : dstep g runB s id = s := by
  unfold dstep
  rw [h]

theorem dstep_eq_nospec (g : List (String × TaskSpec))
    (runB : String → Except String SubAgentResult) (s : DepsState) (id : String)
    (hp : alook s.phases id = some DPhase.polling) (hg : alook g id = none) :
    dstep g runB s id = s := by
  unfold dstep
  rw [hp, hg]

theorem dstep_eq_sleep (g : List (String × TaskSpec))
    (runB : String → Except String SubAgentResult) (s : DepsState) (id : String)
    (spec : TaskSpec) (hp : alook s.phases id = some DPhase.polling)
    (hg : alook g id = some spec) (hnr : depsReady spec s.completed = false) :
    dstep g runB s id = s := by
  unfold dstep
  rw [hp, hg]
  simp [hnr]

theorem dstep_eq_start (g : List (String × TaskSpec))
    (runB : String → Except String SubAgentResult) (s : DepsState) (id : String)
    (spec : TaskSpec) (hp : alook s.phases id = some DPhase.polling)
    (hg : alook g id = some spec) (hr : depsReady spec s.completed = true) :
    dstep g runB s id =
      { s with phases := setPhase s.phases id (DPhase.running (depAgentOf spec s.results)) } := by
  unfold dstep
  rw [hp, hg]
  simp [hr]

theorem dstep_eq_finish (g : List (String × TaskSpec))
    (runB : String → Except String SubAgentResult) (s : DepsState) (id : String)
    (ag : SubAgent) (r : SubAgentResult)
    (hp : alook s.phases id = some (DPhase.running ag)) (hok : runB id = .ok r) :
    dstep g runB s id =
      { s with results := s.results ++ [(id, r)],
               completed := s.completed ++ [id],
               phases := setPhase s.phases id (DPhase.done ag r) } := by
  unfold dstep
  rw [hp, hok]

theorem dstep_eq_fail (g : List (String × TaskSpec))
    (runB : String → Except String SubAgentResult) (s : DepsState) (id : String)
    (ag : SubAgent) (e : String)
    (hp : alook s.phases id = some (DPhase.running ag)) (herr : runB id = .error e) :
    dstep g runB s id =
      { s with phases := setPhase s.phases id (DPhase.failed ag e),
               firstErr := match s.firstErr with | some e0 => some e0 | none => some e } := by
  unfold dstep
  rw [hp, herr]

theorem depsReady_iff (spec : TaskSpec) (completed : List String) :
    depsReady spec completed = true ↔
      ∀ d ∈ spec.dependencies.getD [], d ∈ completed := by
  simp only [depsReady, List.all_eq_true]
  constructor
  · intro h d hd
    exact List.elem_iff.mp (h d hd)
  · intro h d hd
    exact List.elem_iff.mpr (h d hd)

theorem depsReady_mono (spec : TaskSpec) (c c' : List String)
    (hsub : ∀ x, x ∈ c → x ∈ c') (h : depsReady spec c = true) :
    depsReady spec c' = true := by
  rw [depsReady_iff] at h ⊢
  exact fun d hd => hsub d (h d hd)

theorem dstep_eq_done (g : List (String × TaskSpec))
    (runB : String → Except String SubAgentResult) (s : DepsState) (id : String)
    (ag : SubAgent) (r : SubAgentResult)
    (hp : alook s.phases id = some (DPhase.done ag r)) : dstep g runB s id = s := by
  unfold dstep
  rw [hp]

theorem dstep_eq_failed (g : List (String × TaskSpec))
    (runB : String → Except String SubAgentResult) (s : DepsState) (id : String)
    (ag : SubAgent) (e : String)
    (hp : alook s.phases id = some (DPhase.failed ag e)) : dstep g runB s id = s := by
  unfold dstep
  rw [hp]

theorem dstep_DInv (g : List (String × TaskSpec))
    (runB : String → Except String SubAgentResult) (s : DepsState) (id : String)
    (h : DInv g s) : DInv g (dstep g runB s id) := by
  cases hp : alook s.phases id with
  | none => rw [dstep_eq_nophase g runB s id hp]; exact h
  | some ph =>
    cases ph with
    | polling =>
      cases hg : alook g id with
      | none => rw [dstep_eq_nospec g runB s id hp hg]; exact h
      | some spec =>
        cases hr : depsReady spec s.completed with
        | false => rw [dstep_eq_sleep g runB s id spec hp hg hr]; exact h
        | true =>
          rw [dstep_eq_start g runB s id spec hp hg hr]
          refine ⟨?_, ?_, ?_, ?_, ?_, ?_⟩
          · show keysOf (setPhase s.phases id _) = keysOf g
            rw [keysOf_setPhase]
            exact h.keys_eq
          · intro id0 hc
            obtain ⟨ag0, r0, hph0, hres0⟩ := h.c2d id0 hc
            have hne : id0 ≠ id := by
              intro hEq
              rw [hEq, hp] at hph0
              exact absurd hph0 (by simp)
            exact ⟨ag0, r0, by rw [alook_setPhase_ne _ _ _ _ hne]; exact hph0, hres0⟩
          · intro id0 ag0 r0 hph0
            by_cases hEq : id0 = id
            · subst hEq
              rw [alook_setPhase_self _ _ _ _ hp] at hph0
              exact absurd hph0 (by simp)
            · rw [alook_setPhase_ne _ _ _ _ hEq] at hph0
              exact h.d2c id0 ag0 r0 hph0
          · exact h.r2c
          · intro id0 ph0 hph0 hnp spec0 hg0
            by_cases hEq : id0 = id
            · subst hEq
              rw [hg] at hg0
              injection hg0 with hspec
              subst hspec
              exact hr
            · rw [alook_setPhase_ne _ _ _ _ hEq] at hph0
              exact h.gate id0 ph0 hph0 hnp spec0 hg0
          · exact h.rkeys_nodup
    | running ag =>
      cases hrb : runB id with
      | ok r =>
        rw [dstep_eq_finish g runB s id ag r hp hrb]
        have hncomp : id ∉ s.completed := by
          intro hc
          obtain ⟨ag0, r0, hph0, _⟩ := h.c2d id hc
          rw [hp] at hph0
          exact absurd hph0 (by simp)
        have hnres : alook s.results id = none := by
          cases ha : alook s.results id with
          | none => rfl
          | some r0 => exact absurd (h.r2c id r0 ha) hncomp
        refine ⟨?_, ?_, ?_, ?_, ?_, ?_⟩
        · show keysOf (setPhase s.phases id _) = keysOf g
          rw [keysOf_setPhase]
          exact h.keys_eq
        · intro id0 hc
          rcases List.mem_append.mp hc with hc0 | hc1
          · have hne : id0 ≠ id := fun hEq => hncomp (hEq ▸ hc0)
            obtain ⟨ag0, r0, hph0, hres0⟩ := h.c2d id0 hc0
            exact ⟨ag0, r0, by rw [alook_setPhase_ne _ _ _ _ hne]; exact hph0,
                   alook_append_some _ _ _ _ hres0⟩
          · have hEq : id0 = id := by simpa using hc1
            subst hEq
            refine ⟨ag, r, alook_setPhase_self _ _ _ _ hp, ?_⟩
            rw [alook_append_none _ _ _ hnres, alook_singleton]
            simp
        · intro id0 ag0 r0 hph0
          by_cases hEq : id0 = id
          · subst hEq
            rw [alook_setPhase_self _ _ _ _ hp] at hph0
            have h1 : DPhase.done ag r = DPhase.done ag0 r0 := by injection hph0
            injection h1 with hag hr0
            subst hr0
            constructor
            · exact List.mem_append_right _ (by simp)
            · rw [alook_append_none _ _ _ hnres, alook_singleton]
              simp
          · rw [alook_setPhase_ne _ _ _ _ hEq] at hph0
            obtain ⟨hc0, hres0⟩ := h.d2c id0 ag0 r0 hph0
            exact ⟨List.mem_append_left _ hc0, alook_append_some _ _ _ _ hres0⟩
        · intro id0 r0 hres0
          cases ha : alook s.results id0 with
          | some r1 => exact List.mem_append_left _ (h.r2c id0 r1 ha)
          | none =>
            rw [alook_append_none _ _ _ ha, alook_singleton] at hres0
            by_cases hEq : id = id0
            · subst hEq
              exact List.mem_append_right _ (by simp)
            · rw [if_neg hEq] at hres0
              exact absurd hres0 (by simp)
        · intro id0 ph0 hph0 hnp spec0 hg0
          have hsub : ∀ x, x ∈ s.completed → x ∈ s.completed ++ [id] :=
            fun x hx => List.mem_append_left _ hx
          by_cases hEq : id0 = id
          · subst hEq
            exact depsReady_mono _ _ _ hsub
              (h.gate id0 (DPhase.running ag) hp (by simp) spec0 hg0)
          · rw [alook_setPhase_ne _ _ _ _ hEq] at hph0
            exact depsReady_mono _ _ _ hsub (h.gate id0 ph0 hph0 hnp spec0 hg0)
        · show (keysOf (s.results ++ [(id, r)])).Nodup
          have hkeys : keysOf (s.results ++ [(id, r)]) = keysOf s.results ++ [id] := by
            simp [keysOf]
          rw [hkeys]
          have hnm : id ∉ keysOf s.results := not_mem_keys_of_alook_none _ _ hnres
          simp [List.nodup_append, h.rkeys_nodup, hnm]
      | error e =>
        rw [dstep_eq_fail g runB s id ag e hp hrb]
        refine ⟨?_, ?_, ?_, ?_, ?_, ?_⟩
        · show keysOf (setPhase s.phases id _) = keysOf g
          rw [keysOf_setPhase]
          exact h.keys_eq
        · intro id0 hc
          obtain ⟨ag0, r0, hph0, hres0⟩ := h.c2d id0 hc
          have hne : id0 ≠ id := by
            intro hEq
            rw [hEq, hp] at hph0
            exact absurd hph0 (by simp)
          exact ⟨ag0, r0, by rw [alook_setPhase_ne _ _ _ _ hne]; exact hph0, hres0⟩
        · intro id0 ag0 r0 hph0
          by_cases hEq : id0 = id
          · subst hEq
            rw [alook_setPhase_self _ _ _ _ hp] at hph0
            exact absurd hph0 (by simp)
          · rw [alook_setPhase_ne _ _ _ _ hEq] at hph0
            exact h.d2c id0 ag0 r0 hph0
        · exact h.r2c
        · intro id0 ph0 hph0 hnp spec0 hg0
          by_cases hEq : id0 = id
          · subst hEq
            exact h.gate id0 (DPhase.running ag) hp (by simp) spec0 hg0
          · rw [alook_setPhase_ne _ _ _ _ hEq] at hph0
            exact h.gate id0 ph0 hph0 hnp spec0 hg0
        · exact h.rkeys_nodup
    | done ag r => rw [dstep_eq_done g runB s id ag r hp]; exact h
    | failed ag e => rw [dstep_eq_failed g runB s id ag e hp]; exact h


theorem alook_initPhases :
    ∀ (g : List (String × TaskSpec)) (id : String) (ph : DPhase),
      alook (g.map (fun p => (p.1, DPhase.polling))) id = some ph →
      ph = DPhase.polling := by
  intro g
  induction g with
  | nil => intro id ph h; simp [alook] at h
  | cons p rest ih =>
    intro id ph h
    obtain ⟨k, spec⟩ := p
    by_cases hk : k = id
    · simp [alook, hk] at h
      exact h.symm
    · simp [alook, hk] at h
      exact ih id ph h

theorem keysOf_initPhases (g : List (String × TaskSpec)) :
    keysOf (g.map (fun p => (p.1, DPhase.polling))) = keysOf g := by
  induction g with
  | nil => rfl
  | cons p rest ih =>
    simp [keysOf] at ih ⊢

theorem dinit_DInv (g : List (String × TaskSpec)) (reg : List (String × SubAgent)) :
    DInv g (dinit g reg) := by
  refine ⟨?_, ?_, ?_, ?_, ?_, ?_⟩
  · exact keysOf_initPhases g
  · intro id hc
    simp [dinit] at hc
  · intro id ag r hph
    have := alook_initPhases g id _ hph
    exact absurd this (by simp)
  · intro id r hres
    simp [dinit, alook] at hres
  · intro id ph hph hnp spec hg
    have := alook_initPhases g id ph hph
    exact absurd this hnp
  · simp [dinit, keysOf]

theorem dinit_DOk (g : List (String × TaskSpec)) (reg : List (String × SubAgent)) :
    DOk (dinit g reg) := by
  refine ⟨?_, rfl⟩
  intro id ag e hph
  have := alook_initPhases g id _ hph
  exact absurd this (by simp)

theorem dstep_DOk (g : List (String × TaskSpec))
    (runB : String → Except String SubAgentResult) (s : DepsState) (id : String)
    (hkeys : keysOf s.phases = keysOf g)
    (hok : ∀ i ∈ keysOf g, (runB i).isOk = true)
    (h : DOk s) : DOk (dstep g runB s id) := by
  cases hp : alook s.phases id with
  | none => rw [dstep_eq_nophase g runB s id hp]; exact h
  | some ph =>
    cases ph with
    | polling =>
      cases hg : alook g id with
      | none => rw [dstep_eq_nospec g runB s id hp hg]; exact h
      | some spec =>
        cases hr : depsReady spec s.completed with
        | false => rw [dstep_eq_sleep g runB s id spec hp hg hr]; exact h
        | true =>
          rw [dstep_eq_start g runB s id spec hp hg hr]
          refine ⟨?_, h.err_none⟩
          intro id0 ag e hph0
          by_cases hEq : id0 = id
          · subst hEq
            rw [alook_setPhase_self _ _ _ _ hp] at hph0
            simp at hph0
          · rw [alook_setPhase_ne _ _ _ _ hEq] at hph0
            exact h.no_failed id0 ag e hph0
    | running ag =>
      have hmem : id ∈ keysOf g := by
        rw [← hkeys]
        exact mem_keys_of_alook_some s.phases id _ hp
      have hiok := hok id hmem
      cases hrb : runB id with
      | error e =>
        rw [hrb] at hiok
        simp [Except.isOk, Except.toBool] at hiok
      | ok r =>
        rw [dstep_eq_finish g runB s id ag r hp hrb]
        refine ⟨?_, h.err_none⟩
        intro id0 ag0 e hph0
        by_cases hEq : id0 = id
        · subst hEq
          rw [alook_setPhase_self _ _ _ _ hp] at hph0
          simp at hph0
        · rw [alook_setPhase_ne _ _ _ _ hEq] at hph0
          exact h.no_failed id0 ag0 e hph0
    | done ag r => rw [dstep_eq_done g runB s id ag r hp]; exact h
    | failed ag e => rw [dstep_eq_failed g runB s id ag e hp]; exact h

theorem dstep_active_agents (g : List (String × TaskSpec))
    (runB : String → Except String SubAgentResult) (s : DepsState) (id : String) :
    (dstep g runB s id).active_agents = s.active_agents := by
  cases hp : alook s.phases id with
  | none => rw [dstep_eq_nophase g runB s id hp]
  | some ph =>
    cases ph with
    | polling =>
      cases hg : alook g id with
      | none => rw [dstep_eq_nospec g runB s id hp hg]
      | some spec =>
        cases hr : depsReady spec s.completed with
        | false => rw [dstep_eq_sleep g runB s id spec hp hg hr]
        | true => rw [dstep_eq_start g runB s id spec hp hg hr]
    | running ag =>
      cases hrb : runB id with
      | ok r => rw [dstep_eq_finish g runB s id ag r hp hrb]
      | error e => rw [dstep_eq_fail g runB s id ag e hp hrb]
    | done ag r => rw [dstep_eq_done g runB s id ag r hp]
    | failed ag e => rw [dstep_eq_failed g runB s id ag e hp]

theorem dstep_keys_phases (g : List (String × TaskSpec))
    (runB : String → Except String SubAgentResult) (s : DepsState) (id : String) :
    keysOf (dstep g runB s id).phases = keysOf s.phases := by
  cases hp : alook s.phases id with
  | none => rw [dstep_eq_nophase g runB s id hp]
  | some ph =>
    cases ph with
    | polling =>
      cases hg : alook g id with
      | none => rw [dstep_eq_nospec g runB s id hp hg]
      | some spec =>
        cases hr : depsReady spec s.completed with
        | false => rw [dstep_eq_sleep g runB s id spec hp hg hr]
        | true =>
          rw [dstep_eq_start g runB s id spec hp hg hr]
          exact keysOf_setPhase _ _ _
    | running ag =>
      cases hrb : runB id with
      | ok r =>
        rw [dstep_eq_finish g runB s id ag r hp hrb]
        exact keysOf_setPhase _ _ _
      | error e =>
        rw [dstep_eq_fail g runB s id ag e hp hrb]
        exact keysOf_setPhase _ _ _
    | done ag r => rw [dstep_eq_done g runB s id ag r hp]
    | failed ag e => rw [dstep_eq_failed g runB s id ag e hp]

theorem dstep_mono_completed (g : List (String × TaskSpec))
    (runB : String → Except String SubAgentResult) (s : DepsState) (id id0 : String)
    (h : id0 ∈ s.completed) : id0 ∈ (dstep g runB s id).completed := by
  cases hp : alook s.phases id with
  | none => rw [dstep_eq_nophase g runB s id hp]; exact h
  | some ph =>
    cases ph with
    | polling =>
      cases hg : alook g id with
      | none => rw [dstep_eq_nospec g runB s id hp hg]; exact h
      | some spec =>
        cases hr : depsReady spec s.completed with
        | false => rw [dstep_eq_sleep g runB s id spec hp hg hr]; exact h
        | true => rw [dstep_eq_start g runB s id spec hp hg hr]; exact h
    | running ag =>
      cases hrb : runB id with
      | ok r =>
        rw [dstep_eq_finish g runB s id ag r hp hrb]
        exact List.mem_append_left _ h
      | error e => rw [dstep_eq_fail g runB s id ag e hp hrb]; exact h
    | done ag r => rw [dstep_eq_done g runB s id ag r hp]; exact h
    | failed ag e => rw [dstep_eq_failed g runB s id ag e hp]; exact h

theorem dstep_mono_done (g : List (String × TaskSpec))
    (runB : String → Except String SubAgentResult) (s : DepsState) (id id0 : String)
    (ag0 : SubAgent) (r0 : SubAgentResult)
    (h : alook s.phases id0 = some (DPhase.done ag0 r0)) :
    alook (dstep g runB s id).phases id0 = some (DPhase.done ag0 r0) := by
  cases hp : alook s.phases id with
  | none => rw [dstep_eq_nophase g runB s id hp]; exact h
  | some ph =>
    have hne_of : ph ≠ DPhase.done ag0 r0 → id0 ≠ id := by
      intro hneq hEq
      rw [hEq, hp] at h
      injection h with h2
      exact hneq h2
    cases ph with
    | polling =>
      cases hg : alook g id with
      | none => rw [dstep_eq_nospec g runB s id hp hg]; exact h
      | some spec =>
        cases hr : depsReady spec s.completed with
        | false => rw [dstep_eq_sleep g runB s id spec hp hg hr]; exact h
        | true =>
          rw [dstep_eq_start g runB s id spec hp hg hr]
          rw [alook_setPhase_ne _ _ _ _ (hne_of (by simp))]
          exact h
    | running ag =>
      cases hrb : runB id with
      | ok r =>
        rw [dstep_eq_finish g runB s id ag r hp hrb]
        rw [alook_setPhase_ne _ _ _ _ (hne_of (by simp))]
        exact h
      | error e =>
        rw [dstep_eq_fail g runB s id ag e hp hrb]
        rw [alook_setPhase_ne _ _ _ _ (hne_of (by simp))]
        exact h
    | done ag r => rw [dstep_eq_done g runB s id ag r hp]; exact h
    | failed ag e => rw [dstep_eq_failed g runB s id ag e hp]; exact h

theorem dstep_mono_failed_ph (g : List (String × TaskSpec))
    (runB : String → Except String SubAgentResult) (s : DepsState) (id id0 : String)
    (ag0 : SubAgent) (e0 : String)
    (h : alook s.phases id0 = some (DPhase.failed ag0 e0)) :
    alook (dstep g runB s id).phases id0 = some (DPhase.failed ag0 e0) := by
  cases hp : alook s.phases id with
  | none => rw [dstep_eq_nophase g runB s id hp]; exact h
  | some ph =>
    have hne_of : ph ≠ DPhase.failed ag0 e0 → id0 ≠ id := by
      intro hneq hEq
      rw [hEq, hp] at h
      injection h with h2
      exact hneq h2
    cases ph with
    | polling =>
      cases hg : alook g id with
      | none => rw [dstep_eq_nospec g runB s id hp hg]; exact h
      | some spec =>
        cases hr : depsReady spec s.completed with
        | false => rw [dstep_eq_sleep g runB s id spec hp hg hr]; exact h
        | true =>
          rw [dstep_eq_start g runB s id spec hp hg hr]
          rw [alook_setPhase_ne _ _ _ _ (hne_of (by simp))]
          exact h
    | running ag =>
      cases hrb : runB id with
      | ok r =>
        rw [dstep_eq_finish g runB s id ag r hp hrb]
        rw [alook_setPhase_ne _ _ _ _ (hne_of (by simp))]
        exact h
      | error e =>
        rw [dstep_eq_fail g runB s id ag e hp hrb]
        rw [alook_setPhase_ne _ _ _ _ (hne_of (by simp))]
        exact h
    | done ag r => rw [dstep_eq_done g runB s id ag r hp]; exact h
    | failed ag e => rw [dstep_eq_failed g runB s id ag e hp]; exact h

theorem dstep_mono_finished (g : List (String × TaskSpec))
    (runB : String → Except String SubAgentResult) (s : DepsState) (id id0 : String)
    (h : dfinishedAt s id0 = true) : dfinishedAt (dstep g runB s id) id0 = true := by
  unfold dfinishedAt at h
  cases ha : alook s.phases id0 with
  | none => rw [ha] at h; simp at h
  | some ph =>
    rw [ha] at h
    cases ph with
    | polling => simp at h
    | running ag => simp at h
    | done ag r =>
      unfold dfinishedAt
      rw [dstep_mono_done g runB s id id0 ag r ha]
    | failed ag e =>
      unfold dfinishedAt
      rw [dstep_mono_failed_ph g runB s id id0 ag e ha]



theorem dstep2_keys (g : List (String × TaskSpec))
    (runB : String → Except String SubAgentResult) (s : DepsState) (id : String) :
    keysOf (dstep2 g runB s id).phases = keysOf s.phases := by
  unfold dstep2
  rw [dstep_keys_phases, dstep_keys_phases]

theorem dstep2_active (g : List (String × TaskSpec))
    (runB : String → Except String SubAgentResult) (s : DepsState) (id : String) :
    (dstep2 g runB s id).active_agents = s.active_agents := by
  unfold dstep2
  rw [dstep_active_agents, dstep_active_agents]

theorem dstep2_mono_completed (g : List (String × TaskSpec))
    (runB : String → Except String SubAgentResult) (s : DepsState) (id id0 : String)
    (h : id0 ∈ s.completed) : id0 ∈ (dstep2 g runB s id).completed :=
  dstep_mono_completed g runB _ id id0 (dstep_mono_completed g runB s id id0 h)

theorem dstep2_mono_finished (g : List (String × TaskSpec))
    (runB : String → Except String SubAgentResult) (s : DepsState) (id id0 : String)
    (h : dfinishedAt s id0 = true) : dfinishedAt (dstep2 g runB s id) id0 = true :=
  dstep_mono_finished g runB _ id id0 (dstep_mono_finished g runB s id id0 h)

theorem dstep2_DInv (g : List (String × TaskSpec))
    (runB : String → Except String SubAgentResult) (s : DepsState) (id : String)
    (h : DInv g s) : DInv g (dstep2 g runB s id) :=
  dstep_DInv g runB _ id (dstep_DInv g runB s id h)

theorem dstep2_DOk (g : List (String × TaskSpec))
    (runB : String → Except String SubAgentResult) (s : DepsState) (id : String)
    (hkeys : keysOf s.phases = keysOf g)
    (hok : ∀ i ∈ keysOf g, (runB i).isOk = true)
    (h : DOk s) : DOk (dstep2 g runB s id) := by
  unfold dstep2
  apply dstep_DOk g runB _ id _ hok
  · exact dstep_DOk g runB s id hkeys hok h
  · rw [dstep_keys_phases]
    exact hkeys

theorem foldl_dstep2_mono_finished (g : List (String × TaskSpec))
    (runB : String → Except String SubAgentResult) :
    ∀ (ids : List String) (s : DepsState) (id0 : String),
      dfinishedAt s id0 = true →
      dfinishedAt (ids.foldl (dstep2 g runB) s) id0 = true := by
  intro ids
  induction ids with
  | nil => intro s id0 h; exact h
  | cons a rest ih =>
    intro s id0 h
    exact ih _ id0 (dstep2_mono_finished g runB s a id0 h)

theorem foldl_dstep2_mono_completed (g : List (String × TaskSpec))
    (runB : String → Except String SubAgentResult) :
    ∀ (ids : List String) (s : DepsState) (id0 : String),
      id0 ∈ s.completed → id0 ∈ (ids.foldl (dstep2 g runB) s).completed := by
  intro ids
  induction ids with
  | nil => intro s id0 h; exact h
  | cons a rest ih =>
    intro s id0 h
    exact ih _ id0 (dstep2_mono_completed g runB s a id0 h)

theorem foldl_dstep2_keys (g : List (String × TaskSpec))
    (runB : String → Except String SubAgentResult) :
    ∀ (ids : List String) (s : DepsState),
      keysOf (ids.foldl (dstep2 g runB) s).phases = keysOf s.phases := by
  intro ids
  induction ids with
  | nil => intro s; rfl
  | cons a rest ih =>
    intro s
    have h1 : (a :: rest).foldl (dstep2 g runB) s = rest.foldl (dstep2 g runB) (dstep2 g runB s a) := rfl
    rw [h1, ih, dstep2_keys]

theorem foldl_dstep2_active (g : List (String × TaskSpec))
    (runB : String → Except String SubAgentResult) :
    ∀ (ids : List String) (s : DepsState),
      (ids.foldl (dstep2 g runB) s).active_agents = s.active_agents := by
  intro ids
  induction ids with
  | nil => intro s; rfl
  | cons a rest ih =>
    intro s
    have h1 : (a :: rest).foldl (dstep2 g runB) s = rest.foldl (dstep2 g runB) (dstep2 g runB s a) := rfl
    rw [h1, ih, dstep2_active]

theorem foldl_dstep2_DInv (g : List (String × TaskSpec))
    (runB : String → Except String SubAgentResult) :
    ∀ (ids : List String) (s : DepsState), DInv g s →
      DInv g (ids.foldl (dstep2 g runB) s) := by
  intro ids
  induction ids with
  | nil => intro s h; exact h
  | cons a rest ih => intro s h; exact ih _ (dstep2_DInv g runB s a h)

theorem foldl_dstep2_DOk (g : List (String × TaskSpec))
    (runB : String → Except String SubAgentResult)
    (hok : ∀ i ∈ keysOf g, (runB i).isOk = true) :
    ∀ (ids : List String) (s : DepsState), keysOf s.phases = keysOf g → DOk s →
      DOk (ids.foldl (dstep2 g runB) s) := by
  intro ids
  induction ids with
  | nil => intro s _ h; exact h
  | cons a rest ih =>
    intro s hkeys h
    apply ih
    · rw [dstep2_keys]
      exact hkeys
    · exact dstep2_DOk g runB s a hkeys hok h

theorem dstep2_finishes (g : List (String × TaskSpec))
    (runB : String → Except String SubAgentResult) (s : DepsState) (id : String)
    (spec : TaskSpec) (hkeys : keysOf s.phases = keysOf g)
    (hg : alook g id = some spec)
    (hready : depsReady spec s.completed = true) :
    dfinishedAt (dstep2 g runB s id) id = true := by
  have hmemg : id ∈ keysOf g := mem_keys_of_alook_some g id spec hg
  have hmemp : id ∈ keysOf s.phases := by rw [hkeys]; exact hmemg
  obtain ⟨ph, hp⟩ := alook_isSome_of_mem s.phases id hmemp
  cases ph with
  | polling =>
    unfold dstep2
    rw [dstep_eq_start g runB s id spec hp hg hready]
    have hp2 : alook (setPhase s.phases id
        (DPhase.running (depAgentOf spec s.results))) id =
        some (DPhase.running (depAgentOf spec s.results)) :=
      alook_setPhase_self _ _ _ _ hp
    cases hrb : runB id with
    | ok r =>
      rw [dstep_eq_finish g runB _ id (depAgentOf spec s.results) r hp2 hrb]
      unfold dfinishedAt
      rw [alook_setPhase_self _ _ _ _ hp2]
    | error e =>
      rw [dstep_eq_fail g runB _ id (depAgentOf spec s.results) e hp2 hrb]
      unfold dfinishedAt
      rw [alook_setPhase_self _ _ _ _ hp2]
  | running ag =>
    unfold dstep2
    cases hrb : runB id with
    | ok r =>
      rw [dstep_eq_finish g runB s id ag r hp hrb]
      have hd : alook (setPhase s.phases id (DPhase.done ag r)) id =
          some (DPhase.done ag r) := alook_setPhase_self _ _ _ _ hp
      rw [dstep_eq_done g runB _ id ag r hd]
      unfold dfinishedAt
      rw [hd]
    | error e =>
      rw [dstep_eq_fail g runB s id ag e hp hrb]
      have hd : alook (setPhase s.phases id (DPhase.failed ag e)) id =
          some (DPhase.failed ag e) := alook_setPhase_self _ _ _ _ hp
      rw [dstep_eq_failed g runB _ id ag e hd]
      unfold dfinishedAt
      rw [hd]
  | done ag r =>
    unfold dstep2
    rw [dstep_eq_done g runB s id ag r hp, dstep_eq_done g runB s id ag r hp]
    unfold dfinishedAt
    rw [hp]
  | failed ag e =>
    unfold dstep2
    rw [dstep_eq_failed g runB s id ag e hp, dstep_eq_failed g runB s id ag e hp]
    unfold dfinishedAt
    rw [hp]

theorem foldl_progress (g : List (String × TaskSpec))
    (runB : String → Except String SubAgentResult) (id : String) (spec : TaskSpec)
    (hg : alook g id = some spec) :
    ∀ (ids : List String) (s : DepsState), id ∈ ids → keysOf s.phases = keysOf g →
      depsReady spec s.completed = true →
      dfinishedAt (ids.foldl (dstep2 g runB) s) id = true := by
  intro ids
  induction ids with
  | nil => intro s h; simp at h
  | cons a rest ih =>
    intro s hmem hkeys hready
    rcases List.mem_cons.mp hmem with hEq | hmem2
    · subst hEq
      have hfin := dstep2_finishes g runB s id spec hkeys hg hready
      exact foldl_dstep2_mono_finished g runB rest _ id hfin
    · have hkeys2 : keysOf (dstep2 g runB s a).phases = keysOf g := by
        rw [dstep2_keys]
        exact hkeys
      have hready2 : depsReady spec (dstep2 g runB s a).completed = true :=
        depsReady_mono _ _ _ (fun x hx => dstep2_mono_completed g runB s a x hx) hready
      exact ih _ hmem2 hkeys2 hready2

theorem drounds_succ (g : List (String × TaskSpec))
    (runB : String → Except String SubAgentResult) (n : Nat) (s : DepsState) :
    drounds g runB (n + 1) s = drounds g runB n (dround g runB s) := rfl

theorem rounds_main (g : List (String × TaskSpec))
    (runB : String → Except String SubAgentResult) (rank : String → Nat)
    (hrank : ∀ p ∈ g, ∀ d ∈ (p.2.dependencies.getD []), rank d < rank p.1)
    (hvalid : ∀ p ∈ g, ∀ d ∈ (p.2.dependencies.getD []), d ∈ keysOf g)
    (hok : ∀ i ∈ keysOf g, (runB i).isOk = true) :
    ∀ (R k0 : Nat) (s : DepsState), DInv g s → DOk s →
      (∀ id ∈ keysOf g, rank id < k0 → dfinishedAt s id = true) →
      DInv g (drounds g runB R s) ∧ DOk (drounds g runB R s) ∧
      (∀ id ∈ keysOf g, rank id < k0 + R →
        dfinishedAt (drounds g runB R s) id = true) := by
  intro R
  induction R with
  | zero =>
    intro k0 s h1 h2 h3
    exact ⟨h1, h2, by simpa using h3⟩
  | succ R ih =>
    intro k0 s hInv hOk hP
    have hInv1 : DInv g (dround g runB s) :=
      foldl_dstep2_DInv g runB (keysOf g) s hInv
    have hOk1 : DOk (dround g runB s) :=
      foldl_dstep2_DOk g runB hok (keysOf g) s hInv.keys_eq hOk
    have hP1 : ∀ id ∈ keysOf g, rank id < k0 + 1 →
        dfinishedAt (dround g runB s) id = true := by
      intro id hid hlt
      obtain ⟨spec, hg⟩ := alook_isSome_of_mem g id hid
      have hmemg := mem_of_alook_some g id spec hg
      have hready : depsReady spec s.completed = true := by
        rw [depsReady_iff]
        intro d hd
        have hdg : d ∈ keysOf g := hvalid (id, spec) hmemg d hd
        have hdrank : rank d < rank id := hrank (id, spec) hmemg d hd
        have hdfin : dfinishedAt s d = true := hP d hdg (by omega)
        unfold dfinishedAt at hdfin
        cases ha : alook s.phases d with
        | none => rw [ha] at hdfin; simp at hdfin
        | some ph =>
          rw [ha] at hdfin
          cases ph with
          | polling => simp at hdfin
          | running ag => simp at hdfin
          | done ag r => exact (hInv.d2c d ag r ha).1
          | failed ag e => exact absurd ha (hOk.no_failed d ag e)
      exact foldl_progress g runB id spec hg (keysOf g) s hid hInv.keys_eq hready
    have hmain := ih (k0 + 1) (dround g runB s) hInv1 hOk1 hP1
    rw [drounds_succ]
    refine ⟨hmain.1, hmain.2.1, ?_⟩
    intro id hid hlt
    exact hmain.2.2 id hid (by omega)

theorem le_rankMax (rank : String → Nat) :
    ∀ (l : List String) (id : String), id ∈ l → rank id ≤ rankMax rank l := by
  intro l
  induction l with
  | nil => intro id h; simp at h
  | cons a rest ih =>
    intro id h
    rcases List.mem_cons.mp h with hEq | hmem
    · subst hEq
      exact le_max_left _ _
    · exact le_trans (ih id hmem) (le_max_right _ _)

theorem finished_is_done (s : DepsState) (id : String)
    (hfin : dfinishedAt s id = true)
    (hnf : ∀ ag e, alook s.phases id ≠ some (DPhase.failed ag e)) :
    ∃ ag r, alook s.phases id = some (DPhase.done ag r) := by
  unfold dfinishedAt at hfin
  cases ha : alook s.phases id with
  | none => rw [ha] at hfin; simp at hfin
  | some ph =>
    rw [ha] at hfin
    cases ph with
    | polling => simp at hfin
    | running ag => simp at hfin
    | done ag r => exact ⟨ag, r, rfl⟩
    | failed ag e => exact absurd rfl (ha ▸ hnf ag e)

theorem deps_all_finished (g : List (String × TaskSpec))
    (runB : String → Except String SubAgentResult) (rank : String → Nat) (R : Nat)
    (hrank : ∀ p ∈ g, ∀ d ∈ (p.2.dependencies.getD []), rank d < rank p.1)
    (hvalid : ∀ p ∈ g, ∀ d ∈ (p.2.dependencies.getD []), d ∈ keysOf g)
    (hok : ∀ i ∈ keysOf g, (runB i).isOk = true)
    (hR : ∀ id ∈ keysOf g, rank id < R) :
    DInv g (drounds g runB R (dinit g [])) ∧ DOk (drounds g runB R (dinit g [])) ∧
      ∀ id ∈ keysOf g, dfinishedAt (drounds g runB R (dinit g [])) id = true := by
  have hmain := rounds_main g runB rank hrank hvalid hok R 0 (dinit g [])
    (dinit_DInv g []) (dinit_DOk g []) (by intro id _ h; omega)
  refine ⟨hmain.1, hmain.2.1, ?_⟩
  intro id hid
  exact hmain.2.2 id hid (by have := hR id hid; omega)



theorem expResults_length (runs : Nat → Except String SubAgentResult) :
    ∀ (tasks : List TaskSpec) (idx : Nat),
      (expResults runs tasks idx).length = tasks.length := by
  intro tasks
  induction tasks with
  | nil => intro idx; rfl
  | cons spec rest ih => intro idx; simp [expResults, ih]

theorem expResults_get? (runs : Nat → Except String SubAgentResult) :
    ∀ (tasks : List TaskSpec) (idx i : Nat) (spec : TaskSpec),
      tasks.get? i = some spec →
      (expResults runs tasks idx).get? i = some (okVal (runs (idx + i))) := by
  intro tasks
  induction tasks with
  | nil => intro idx i spec h; simp at h
  | cons spec0 rest ih =>
    intro idx i spec h
    cases i with
    | zero => simp [expResults]
    | succ i =>
      simp only [List.get?_cons_succ] at h
      simp only [expResults, List.get?_cons_succ]
      rw [ih (idx + 1) i spec h]
      have h3 : idx + 1 + i = idx + (i + 1) := by omega
      rw [h3]

theorem expCalls_get? (runs : Nat → Except String SubAgentResult) :
    ∀ (tasks : List TaskSpec) (idx : Nat) (acc : String) (i : Nat) (spec : TaskSpec),
      tasks.get? i = some spec →
      (expCalls runs tasks idx acc).get? i =
        some { task := spec.description.getD (spec.task.getD ""),
               model := spec.model,
               context := acc ++ chainFrom runs idx i ++ "\n\n" ++ spec.context.getD "",
               regAtRun := [("agent_" ++ toString (idx + i),
                 parAgentOf spec
                   (acc ++ chainFrom runs idx i ++ "\n\n" ++ spec.context.getD ""))] } := by
  intro tasks
  induction tasks with
  | nil => intro idx acc i spec h; simp at h
  | cons spec0 rest ih =>
    intro idx acc i spec h
    cases i with
    | zero =>
      simp only [List.get?_cons_zero, Option.some_inj] at h
      subst h
      simp only [expCalls, List.get?_cons_zero, chainFrom, Nat.add_zero,
        String.append_empty, parAgentOf]
    | succ i =>
      simp only [List.get?_cons_succ] at h
      simp only [expCalls, List.get?_cons_succ]
      rw [ih (idx + 1) (acc ++ contrib (runs idx)) i spec h]
      have h3 : idx + 1 + i = idx + (i + 1) := by omega
      have h4 : acc ++ contrib (runs idx) ++ chainFrom runs (idx + 1) i =
          acc ++ chainFrom runs idx (i + 1) := by
        rw [chainFrom_succ_left runs i idx, ← String.append_assoc]
      rw [h3, h4]

theorem seqAux_err (fErr : Nat → Option String)
    (runs : Nat → Except String SubAgentResult) (e : String) :
    ∀ (tasks : List TaskSpec) (j idx : Nat) (acc : String)
      (res : List SubAgentResult) (calls : List SeqCall),
      j < tasks.length →
      (∀ i, i < j → fErr (idx + i) = none) →
      (∀ i, i < j → (runs (idx + i)).isOk = true) →
      fErr (idx + j) = none →
      runs (idx + j) = .error e →
      (seqAux fErr runs tasks idx acc res calls []).result = .error e ∧
      (seqAux fErr runs tasks idx acc res calls []).calls.length = calls.length + (j + 1) ∧
      (seqAux fErr runs tasks idx acc res calls []).registry.length = 1 := by
  intro tasks
  induction tasks with
  | nil => intro j idx acc res calls hj; simp at hj
  | cons spec rest ih =>
    intro j idx acc res calls hj hfok hrok hfe hre
    cases j with
    | zero =>
      simp only [Nat.add_zero] at hfe hre
      refine ⟨?_, ?_, ?_⟩ <;> simp [seqAux, hfe, hre]
    | succ j =>
      have hf0 : fErr idx = none := by simpa using hfok 0 (by omega)
      have hr0 : (runs idx).isOk = true := by simpa using hrok 0 (by omega)
      obtain ⟨r, hrun⟩ : ∃ r, runs idx = .ok r := by
        cases hx : runs idx with
        | ok r => exact ⟨r, rfl⟩
        | error e2 => rw [hx] at hr0; simp [Except.isOk, Except.toBool] at hr0
      have hfok2 : ∀ i, i < j → fErr (idx + 1 + i) = none := by
        intro i hi
        have h2 := hfok (i + 1) (by omega)
        have h3 : idx + 1 + i = idx + (i + 1) := by omega
        rw [h3]; exact h2
      have hrok2 : ∀ i, i < j → (runs (idx + 1 + i)).isOk = true := by
        intro i hi
        have h2 := hrok (i + 1) (by omega)
        have h3 : idx + 1 + i = idx + (i + 1) := by omega
        rw [h3]; exact h2
      have hfe2 : fErr (idx + 1 + j) = none := by
        have h3 : idx + 1 + j = idx + (j + 1) := by omega
        rw [h3]; exact hfe
      have hre2 : runs (idx + 1 + j) = .error e := by
        have h3 : idx + 1 + j = idx + (j + 1) := by omega
        rw [h3]; exact hre
      have hIH := ih j (idx + 1)
        (if r.success then acc ++ "\n\nPrevious step result:\n" ++ r.summary else acc)
        (res ++ [r])
        (calls ++ [{ task := (parAgentOf spec (acc ++ "\n\n" ++ spec.context.getD "")).task,
                     model := (parAgentOf spec (acc ++ "\n\n" ++ spec.context.getD "")).model,
                     context := (parAgentOf spec (acc ++ "\n\n" ++ spec.context.getD "")).context,
                     regAtRun := [("agent_" ++ toString idx,
                       parAgentOf spec (acc ++ "\n\n" ++ spec.context.getD ""))] }])
        (by simpa using hj) hfok2 hrok2 hfe2 hre2
      have hstep : seqAux fErr runs (spec :: rest) idx acc res calls [] =
          seqAux fErr runs rest (idx + 1)
            (if r.success then acc ++ "\n\nPrevious step result:\n" ++ r.summary else acc)
            (res ++ [r])
            (calls ++ [{ task := (parAgentOf spec (acc ++ "\n\n" ++ spec.context.getD "")).task,
                         model := (parAgentOf spec (acc ++ "\n\n" ++ spec.context.getD "")).model,
                         context := (parAgentOf spec (acc ++ "\n\n" ++ spec.context.getD "")).context,
                         regAtRun := [("agent_" ++ toString idx,
                           parAgentOf spec (acc ++ "\n\n" ++ spec.context.getD ""))] }])
            [] := by
        simp only [seqAux, hf0, hrun, List.nil_append, List.filter, bne_self_eq_false]
      rw [hstep]
      refine ⟨hIH.1, ?_, hIH.2.2⟩
      rw [hIH.2.1]
      simp only [List.length_append, List.length_singleton]
      omega

theorem dexec_DInv (g : List (String × TaskSpec))
    (runB : String → Except String SubAgentResult) :
    ∀ (sched : List String) (s : DepsState), DInv g s →
      DInv g (dexec g runB sched s) := by
  intro sched
  induction sched with
  | nil => intro s h; exact h
  | cons a rest ih => intro s h; exact ih _ (dstep_DInv g runB s a h)

theorem dexec_active (g : List (String × TaskSpec))
    (runB : String → Except String SubAgentResult) :
    ∀ (sched : List String) (s : DepsState),
      (dexec g runB sched s).active_agents = s.active_agents := by
  intro sched
  induction sched with
  | nil => intro s; rfl
  | cons a rest ih =>
    intro s
    have h1 : dexec g runB (a :: rest) s = dexec g runB rest (dstep g runB s a) := rfl
    rw [h1, ih, dstep_active_agents]

theorem buildContext_fold (results : List (String × SubAgentResult)) :
    ∀ (deps : List String) (c : String),
      deps.foldl
        (fun c2 dep =>
          match alook results dep with
          | some r =>
            if r.success then c2 ++ "\n\nDependency " ++ dep ++ " result:\n" ++ r.summary
            else c2
          | none => c2) c = c ++ depsCtx results deps := by
  intro deps
  induction deps with
  | nil => intro c; simp [depsCtx, String.append_empty]
  | cons d rest ih =>
    intro c
    show (rest.foldl _ _) = _
    cases ha : alook results d with
    | none =>
      simp only [List.foldl_cons, ha]
      rw [ih c]
      simp [depsCtx, ha, String.empty_append]
    | some r =>
      cases hs : r.success with
      | false =>
        simp only [List.foldl_cons, ha, hs]
        rw [if_neg (by simp)]
        rw [ih c]
        simp [depsCtx, ha, hs, String.empty_append]
      | true =>
        simp only [List.foldl_cons, ha, hs]
        rw [if_pos trivial]
        rw [ih (c ++ "\n\nDependency " ++ d ++ " result:\n" ++ r.summary)]
        simp [depsCtx, ha, hs, String.append_assoc]

theorem buildContext_eq (spec : TaskSpec) (results : List (String × SubAgentResult)) :
    buildContext spec results =
      spec.context.getD "" ++ depsCtx results (spec.dependencies.getD []) := by
  unfold buildContext
  exact buildContext_fold results (spec.dependencies.getD []) (spec.context.getD "")

theorem spawn_deps_eq_ok (g : List (String × TaskSpec))
    (runB : String → Except String SubAgentResult) (fuel : Nat)
    (he : (drounds g runB fuel (dinit g [])).firstErr = none)
    (hall : ((keysOf g).all
      (fun id => dfinishedAt (drounds g runB fuel (dinit g [])) id)) = true) :
    spawn_with_dependencies g runB fuel =
      some (.ok (drounds g runB fuel (dinit g [])).results) := by
  unfold spawn_with_dependencies
  rw [he]
  simp [hall]



/-- C2: for every list of N TaskSpecs and every concurrency limit k with
1 ≤ k ≤ N, `spawn_parallel` (over any cooperative schedule that completes the
batch) returns a list of exactly N results whose i-th element is the handled
`run()` outcome of the i-th input TaskSpec — the agents having been created
from the specs in input order — regardless of the order in which the `run()`
calls complete. -/
theorem c2_parallel_order_preservation (fErr : Nat → Option String)
    (runs : Nat → Except String SubAgentResult) (sched : List Nat)
    (tasks : List TaskSpec) (k : Nat)
    (hk1 : 1 ≤ k) (hk2 : k ≤ tasks.length)
    (hc : ∀ j, j < tasks.length → fErr j = none)
    (hdone : ((pexec runs sched (pinit tasks.length k)).phases.all isDoneP) = true) :
    spawn_parallel fErr runs sched tasks k =
      some (.ok ((List.range tasks.length).map (fun j => handleOne (runs j))), []) ∧
    ((List.range tasks.length).map (fun j => handleOne (runs j))).length = tasks.length ∧
    (∀ i, i < tasks.length →
      ((List.range tasks.length).map (fun j => handleOne (runs j))).get? i =
        some (handleOne (runs i))) ∧
    createLoop fErr tasks 0 [] [] =
      .ok (tasks.map (fun s2 => parAgentOf s2 (s2.context.getD "")), expReg tasks 0) := by
  refine ⟨spawn_parallel_complete fErr runs sched tasks k hc hdone, by simp, ?_, ?_⟩
  · intro i hi
    rw [List.get?_map, List.get?_range hi]
    rfl
  · have := createLoop_ok fErr tasks 0 [] [] (by simpa using hc)
    simpa using this

/-- C2 witness: a concrete two-task batch with limit 1 under a schedule that
finishes both tasks. -/
theorem c2_witness :
    (1 ≤ 1 ∧ 1 ≤ twoSpecs.length ∧ (∀ j, j < twoSpecs.length → noFail j = none) ∧
      ((pexec okRun schedSeq (pinit twoSpecs.length 1)).phases.all isDoneP) = true) ∧
    spawn_parallel noFail okRun schedSeq twoSpecs 1 =
      some (.ok ((List.range twoSpecs.length).map (fun j => handleOne (okRun j))), []) := by
  refine ⟨⟨by decide, by decide, by decide, by decide⟩, ?_⟩
  exact (c2_parallel_order_preservation noFail okRun schedSeq twoSpecs 1
    (by decide) (by decide) (by decide) (by decide)).1

/-- C3: during any execution of `spawn_parallel` with limit k ≥ 1 over N ≥ k
tasks, at every interleaving step of the cooperative schedule the number of
work units simultaneously inside `run()` never exceeds k. -/
theorem c3_concurrency_bound (runs : Nat → Except String SubAgentResult)
    (n k : Nat) (sched : List Nat) (hk : 1 ≤ k) (hn : k ≤ n) :
    ((pexec runs sched (pinit n k)).phases.countP isRunning) ≤ k := by
  have h0 : (pinit n k).phases.countP isRunning + (pinit n k).permits = k := by
    simp [pinit, List.countP_replicate, isRunning]
  have h1 := pexec_permits runs k sched _ h0
  omega

/-- C3 witness: two tasks, limit 1, a schedule that tries to start the second
task while the first is still running. -/
theorem c3_witness :
    (1 ≤ 1 ∧ 1 ≤ 2) ∧
    ((pexec okRun [0, 1, 0, 1] (pinit 2 1)).phases.countP isRunning) ≤ 1 :=
  ⟨⟨by decide, by decide⟩,
   c3_concurrency_bound okRun 2 1 [0, 1, 0, 1] (by decide) (by decide)⟩

/-- C4 counterexample: a two-task batch where exactly task 0 raises and
task 1 returns a result with `success=false`.  The returned list shows the
converted summary is `"Agent failed with exception"`, not
`"unit failed with exception"`, and `success=false` does not hold only for
the raising task (task 1's own failed result is passed through). -/
theorem c4_counterexample :
    spawn_parallel noFail c4R schedSeq twoSpecs 2 =
      some (.ok [{ success := false, summary := "Agent failed with exception",
                   error := some "boom" },
                 { success := false, summary := "second", error := none }], []) ∧
    "Agent failed with exception" ≠ "unit failed with exception" := by
  constructor
  · decide
  · decide

/-- C4 amended: if exactly one of the N tasks raises (the others returning
results with `success=true`), the returned list has length N, the raising
task's entry is `success=false` with summary `"Agent failed with exception"`
and the exception message as error, and every other entry is that task's own
successful result passed through unchanged. -/
theorem c4_amended (fErr : Nat → Option String)
    (runs : Nat → Except String SubAgentResult) (sched : List Nat)
    (tasks : List TaskSpec) (k : Nat) (i : Nat) (e : String)
    (hc : ∀ j, j < tasks.length → fErr j = none)
    (hdone : ((pexec runs sched (pinit tasks.length k)).phases.all isDoneP) = true)
    (hi : i < tasks.length)
    (he : runs i = .error e)
    (hothers : ∀ j, j < tasks.length → j ≠ i → okSucc (runs j) = true) :
    spawn_parallel fErr runs sched tasks k =
      some (.ok ((List.range tasks.length).map (fun j => handleOne (runs j))), []) ∧
    ((List.range tasks.length).map (fun j => handleOne (runs j))).length = tasks.length ∧
    ((List.range tasks.length).map (fun j => handleOne (runs j))).get? i =
      some { success := false, summary := "Agent failed with exception",
             error := some e } ∧
    (∀ j, j < tasks.length → j ≠ i →
      ∃ r, runs j = .ok r ∧ r.success = true ∧
        ((List.range tasks.length).map (fun j2 => handleOne (runs j2))).get? j =
          some r) := by
  refine ⟨spawn_parallel_complete fErr runs sched tasks k hc hdone, by simp, ?_, ?_⟩
  · rw [List.get?_map, List.get?_range hi]
    simp only [Option.map_some']
    rw [he]
    rfl
  · intro j hj hne
    have hOk := hothers j hj hne
    cases hx : runs j with
    | error e2 => rw [hx] at hOk; simp [okSucc] at hOk
    | ok r =>
      refine ⟨r, rfl, ?_, ?_⟩
      · rw [hx] at hOk
        simpa [okSucc] using hOk
      · rw [List.get?_map, List.get?_range hj]
        simp only [Option.map_some']
        rw [hx]
        rfl

/-- C4 witness: task 1 of two raises `"kaput"`, task 0 succeeds. -/
theorem c4_witness :
    spawn_parallel noFail c4wR schedSeq twoSpecs 2 =
      some (.ok ((List.range twoSpecs.length).map (fun j => handleOne (c4wR j))), []) ∧
    ((List.range twoSpecs.length).map (fun j => handleOne (c4wR j))).get? 1 =
      some { success := false, summary := "Agent failed with exception",
             error := some "kaput" } := by
  have h := c4_amended noFail c4wR schedSeq twoSpecs 2 1 "kaput"
    (by decide) (by decide) (by decide) (by decide) (by decide)
  exact ⟨h.1, h.2.2.1⟩



/-- C7: under `spawn_sequential` with all units returning normally, the
results come back in input order (the i-th being task i's own `run()`
outcome), and the effective context handed to task i is exactly the
accumulated chain of labeled renditions of the summaries of those earlier
tasks whose result had `success=true` (failed results contribute nothing),
followed by a blank line and the task's own context. -/
theorem c7_sequential_chaining (fErr : Nat → Option String)
    (runs : Nat → Except String SubAgentResult) (tasks : List TaskSpec)
    (hf : ∀ j, j < tasks.length → fErr j = none)
    (hr : ∀ j, j < tasks.length → (runs j).isOk = true) :
    (spawn_sequential fErr runs tasks).result = .ok (expResults runs tasks 0) ∧
    (∀ i spec, tasks.get? i = some spec →
      (expResults runs tasks 0).get? i = some (okVal (runs i)) ∧
      (spawn_sequential fErr runs tasks).calls.get? i =
        some { task := spec.description.getD (spec.task.getD ""),
               model := spec.model,
               context := chainFrom runs 0 i ++ "\n\n" ++ spec.context.getD "",
               regAtRun := [("agent_" ++ toString i,
                 parAgentOf spec
                   (chainFrom runs 0 i ++ "\n\n" ++ spec.context.getD ""))] }) := by
  have hseq := seqAux_ok fErr runs tasks 0 "" [] []
    (by simpa using hf) (by simpa using hr)
  unfold spawn_sequential
  rw [hseq]
  refine ⟨by simp, ?_⟩
  intro i spec hget
  constructor
  · have := expResults_get? runs tasks 0 i spec hget
    simpa using this
  · have hc := expCalls_get? runs tasks 0 "" i spec hget
    show ([] ++ expCalls runs tasks 0 "").get? i = _
    simp only [List.nil_append]
    rw [hc]
    simp [String.empty_append]

/-- C7 witness: two tasks with explicit contexts; task 1's recorded effective
context contains the labeled rendition of task 0's summary. -/
theorem c7_witness :
    ((∀ j, j < c7T.length → noFail j = none) ∧
     (∀ j, j < c7T.length → (okRun j).isOk = true)) ∧
    ((spawn_sequential noFail okRun c7T).calls.get? 1).map (fun c => c.context) =
      some "\n\nPrevious step result:\ns0\n\nc1" := by
  refine ⟨⟨by decide, by decide⟩, ?_⟩
  have h := (c7_sequential_chaining noFail okRun c7T (by decide) (by decide)).2 1
    { description := some "d1", context := some "c1" } rfl
  rw [h.2]
  decide

/-- C1 counterexample: in `spawn_sequential`, a `run()` exception in task 0
of two propagates out of the call (the result is the exception, not a
collection of 2 results) and the second task is never created or run — the
claim's guarantee does not hold for all three strategies. -/
theorem c1_counterexample :
    (spawn_sequential noFail c1R twoSpecs).result = .error "boom" ∧
    (spawn_sequential noFail c1R twoSpecs).calls.length = 1 ∧
    twoSpecs.length = 2 := by
  refine ⟨by decide, by decide, by decide⟩

/-- C1 amended: only `spawn_parallel` captures a unit's `run()` exception
per-task and converts it into a `success=false` result while still returning
a complete result collection; in `spawn_sequential` a `run()` exception
propagates out of the call and the tasks after it never run; in
`spawn_with_dependencies` a `run()` exception likewise propagates out of the
call (shown on a one-task graph). -/
theorem c1_amended (fErrP : Nat → Option String)
    (runsP : Nat → Except String SubAgentResult) (schedP : List Nat)
    (tasksP : List TaskSpec) (k : Nat)
    (runsS : Nat → Except String SubAgentResult) (tasksS : List TaskSpec)
    (j : Nat) (e : String)
    (hcP : ∀ i, i < tasksP.length → fErrP i = none)
    (hdoneP : ((pexec runsP schedP (pinit tasksP.length k)).phases.all isDoneP) = true)
    (hjS : j < tasksS.length)
    (hokS : ∀ i, i < j → (runsS i).isOk = true)
    (heS : runsS j = .error e) :
    (spawn_parallel fErrP runsP schedP tasksP k =
      some (.ok ((List.range tasksP.length).map (fun i => handleOne (runsP i))), []) ∧
     (∀ i, i < tasksP.length → ∀ e2, runsP i = .error e2 →
       ((List.range tasksP.length).map (fun i2 => handleOne (runsP i2))).get? i =
         some { success := false, summary := "Agent failed with exception",
                error := some e2 })) ∧
    ((spawn_sequential noFail runsS tasksS).result = .error e ∧
     (spawn_sequential noFail runsS tasksS).calls.length = j + 1) ∧
    spawn_with_dependencies c1G c1RB 1 = some (.error "bang") := by
  refine ⟨⟨spawn_parallel_complete fErrP runsP schedP tasksP k hcP hdoneP, ?_⟩, ?_, by decide⟩
  · intro i hi e2 he2
    rw [List.get?_map, List.get?_range hi]
    simp only [Option.map_some']
    rw [he2]
    rfl
  · have hx := seqAux_err noFail runsS e tasksS j 0 "" [] []
      hjS (fun i _ => rfl) (by simpa using hokS) rfl (by simpa using heS)
    unfold spawn_sequential
    refine ⟨hx.1, ?_⟩
    rw [hx.2.1]
    simp

/-- C1 witness: concrete parallel batch with one raising task, and a
concrete sequential batch whose first task raises. -/
theorem c1_witness :
    (spawn_sequential noFail c1R twoSpecs).result = .error "boom" ∧
    spawn_parallel noFail c1R schedSeq twoSpecs 2 =
      some (.ok ((List.range twoSpecs.length).map (fun i => handleOne (c1R i))), []) := by
  have h := c1_amended noFail c1R schedSeq twoSpecs 2 c1R twoSpecs 0 "boom"
    (by decide) (by decide) (by decide) (by decide) (by decide)
  exact ⟨h.2.1.1, h.1.1⟩

/-- C5 counterexample: in `spawn_with_dependencies` a unit runs with no entry
in the active-unit registry (the registry stays empty while the watcher is
inside `run()`), and a factory failure in `spawn_parallel` leaves the
already-created entry `"agent_0"` in the registry after the call completes by
a propagated exception. -/
theorem c5_counterexample :
    alook (dexec g5 okRunB ["A"] (dinit g5 [])).phases "A" =
      some (DPhase.running { task := "", model := none, context := "" }) ∧
    (dexec g5 okRunB ["A"] (dinit g5 [])).active_agents = [] ∧
    spawn_parallel failAt1 okRun schedSeq twoSpecs 2 =
      some (.error "boom", [("agent_0", { task := "t0", model := none, context := "" })]) := by
  refine ⟨by decide, by decide, by decide⟩

/-- C5 amended: `spawn_parallel` and `spawn_sequential` register every unit
under `"agent_<idx>"` for the duration of its run and the registry is empty
when the call completes normally; `spawn_with_dependencies` never touches the
registry at all; and a call that completes by a propagated exception leaves
entries behind (the already-created agents for a parallel factory failure,
the current agent for a sequential `run()` exception). -/
theorem c5_amended (g : List (String × TaskSpec))
    (runB : String → Except String SubAgentResult) (sched : List String)
    (reg0 : List (String × SubAgent))
    (fErrP : Nat → Option String) (runsP : Nat → Except String SubAgentResult)
    (schedP : List Nat) (tasksP : List TaskSpec) (k : Nat)
    (runsS : Nat → Except String SubAgentResult) (tasksS : List TaskSpec)
    (hcP : ∀ j, j < tasksP.length → fErrP j = none)
    (hdoneP : ((pexec runsP schedP (pinit tasksP.length k)).phases.all isDoneP) = true)
    (hrS : ∀ j, j < tasksS.length → (runsS j).isOk = true) :
    (dexec g runB sched (dinit g reg0)).active_agents = reg0 ∧
    spawn_parallel fErrP runsP schedP tasksP k =
      some (.ok ((List.range tasksP.length).map (fun j => handleOne (runsP j))), []) ∧
    createLoop fErrP tasksP 0 [] [] =
      .ok (tasksP.map (fun s2 => parAgentOf s2 (s2.context.getD "")), expReg tasksP 0) ∧
    (∀ i spec, tasksP.get? i = some spec →
      (expReg tasksP 0).get? i =
        some ("agent_" ++ toString i, parAgentOf spec (spec.context.getD ""))) ∧
    (spawn_sequential noFail runsS tasksS).registry = [] ∧
    (∀ i spec, tasksS.get? i = some spec →
      ∃ ag, (spawn_sequential noFail runsS tasksS).calls.get? i =
        some { task := ag.task, model := ag.model, context := ag.context,
               regAtRun := [("agent_" ++ toString i, ag)] }) ∧
    spawn_parallel failAt1 okRun schedSeq twoSpecs 2 =
      some (.error "boom", [("agent_0", { task := "t0", model := none, context := "" })]) ∧
    (spawn_sequential noFail c1R twoSpecs).registry =
      [("agent_0", { task := "t0", model := none, context := "\n\n" })] := by
  have hseq := seqAux_ok noFail runsS tasksS 0 "" [] []
    (fun j _ => rfl) (by simpa using hrS)
  refine ⟨?_, spawn_parallel_complete fErrP runsP schedP tasksP k hcP hdoneP,
    ?_, ?_, ?_, ?_, by decide, by decide⟩
  · rw [dexec_active]
    rfl
  · simpa using createLoop_ok fErrP tasksP 0 [] [] (by simpa using hcP)
  · intro i spec h
    simpa using expReg_get? tasksP 0 i spec h
  · unfold spawn_sequential
    rw [hseq]
  · intro i spec h
    unfold spawn_sequential
    rw [hseq]
    have hc := expCalls_get? runsS tasksS 0 "" i spec h
    refine ⟨parAgentOf spec ("" ++ chainFrom runsS 0 i ++ "\n\n" ++ spec.context.getD ""), ?_⟩
    show ([] ++ expCalls runsS tasksS 0 "").get? i = _
    simp only [List.nil_append]
    rw [hc]
    simp [parAgentOf]

/-- C5 witness: concrete instances for the dependency-graph registry clause
and the sequential normal-completion clause. -/
theorem c5_witness :
    ((∀ j, j < twoSpecs.length → noFail j = none) ∧
     ((pexec okRun schedSeq (pinit twoSpecs.length 2)).phases.all isDoneP) = true ∧
     (∀ j, j < twoSpecs.length → (okRun j).isOk = true)) ∧
    (dexec gAB runAB ["A"] (dinit gAB [])).active_agents = [] ∧
    (spawn_sequential noFail okRun twoSpecs).registry = [] := by
  refine ⟨⟨by decide, by decide, by decide⟩, ?_, ?_⟩
  · exact (c5_amended gAB runAB ["A"] [] noFail okRun schedSeq twoSpecs 2 okRun twoSpecs
      (by decide) (by decide) (by decide)).1
  · exact (c5_amended gAB runAB ["A"] [] noFail okRun schedSeq twoSpecs 2 okRun twoSpecs
      (by decide) (by decide) (by decide)).2.2.2.2.1



/-- C6: in `spawn_with_dependencies`, (i) at every suspension point of every
cooperative schedule, a watcher that has left its poll loop (running, done,
or failed) has every declared dependency completed, each with its `run()`
returned and its result recorded — so for every declared edge, the dependent
never starts before the dependency's `run()` has returned; (ii) a dependency
that completed with `success=false` does not block the dependent: completion
of all dependencies alone enables the polling watcher to enter `run()`;
(iii) the effective context is the spec's own context followed by, for each
dependency in order, a labeled rendition of its summary when it completed
with `success=true` and nothing when it did not. -/
theorem c6_dependency_gating (g : List (String × TaskSpec))
    (runB : String → Except String SubAgentResult) (sched : List String) :
    (∀ B ph spec d, alook (dexec g runB sched (dinit g [])).phases B = some ph →
      ph ≠ DPhase.polling → alook g B = some spec →
      d ∈ spec.dependencies.getD [] →
      ∃ agA rA,
        alook (dexec g runB sched (dinit g [])).phases d = some (DPhase.done agA rA) ∧
        alook (dexec g runB sched (dinit g [])).results d = some rA) ∧
    (∀ (s : DepsState) (B : String) (spec : TaskSpec),
      alook s.phases B = some DPhase.polling → alook g B = some spec →
      depsReady spec s.completed = true →
      alook (dstep g runB s B).phases B =
        some (DPhase.running (depAgentOf spec s.results))) ∧
    (∀ (spec : TaskSpec) (results : List (String × SubAgentResult)),
      buildContext spec results =
        spec.context.getD "" ++ depsCtx results (spec.dependencies.getD [])) ∧
    (∀ (results : List (String × SubAgentResult)) (d : String)
      (rest : List String) (r : SubAgentResult),
      alook results d = some r → r.success = false →
      depsCtx results (d :: rest) = depsCtx results rest) ∧
    (∀ (results : List (String × SubAgentResult)) (d : String)
      (rest : List String) (r : SubAgentResult),
      alook results d = some r → r.success = true →
      depsCtx results (d :: rest) =
        "\n\nDependency " ++ d ++ " result:\n" ++ r.summary ++ depsCtx results rest) := by
  refine ⟨?_, ?_, buildContext_eq, ?_, ?_⟩
  · intro B ph spec d hph hnp hg hd
    have hInv := dexec_DInv g runB sched (dinit g []) (dinit_DInv g [])
    have hready := hInv.gate B ph hph hnp spec hg
    have hdc : d ∈ (dexec g runB sched (dinit g [])).completed :=
      (depsReady_iff spec _).mp hready d hd
    obtain ⟨ag, r, h1, h2⟩ := hInv.c2d d hdc
    exact ⟨ag, r, h1, h2⟩
  · intro s B spec hpoll hg hready
    rw [dstep_eq_start g runB s B spec hpoll hg hready]
    exact alook_setPhase_self _ _ _ _ hpoll
  · intro results d rest r ha hs
    simp [depsCtx, ha, hs, String.empty_append]
  · intro results d rest r ha hs
    simp [depsCtx, ha, hs, String.append_assoc]

/-- C6 witness: on the graph `A ← B` with schedule `[A, A, B]`, B is inside
`run()` and A's run has returned with its result recorded. -/
theorem c6_witness :
    ∃ agA rA,
      alook (dexec gAB runAB ["A", "A", "B"] (dinit gAB [])).phases "A" =
        some (DPhase.done agA rA) ∧
      alook (dexec gAB runAB ["A", "A", "B"] (dinit gAB [])).results "A" = some rA :=
  (c6_dependency_gating gAB runAB ["A", "A", "B"]).1 "B"
    (DPhase.running
      (SubAgent.mk "" none "\n\nDependency A result:\nA done"))
    (TaskSpec.mk none none none none (some ["A"]))
    "A" (by decide) (by decide) (by decide) (by decide)

/-- C9: at every suspension point of every cooperative schedule of
`spawn_with_dependencies`, every member of the shared `completed` set has its
result stored in the results mapping (the watcher stores the result before
adding its TaskId to `completed`), so a dependent that observes a dependency
as completed can read that dependency's result. -/
theorem c9_completed_subset_results (g : List (String × TaskSpec))
    (runB : String → Except String SubAgentResult) (sched : List String) (id : String)
    (h : id ∈ (dexec g runB sched (dinit g [])).completed) :
    ∃ r, alook (dexec g runB sched (dinit g [])).results id = some r ∧
      ∃ ag, alook (dexec g runB sched (dinit g [])).phases id =
        some (DPhase.done ag r) := by
  have hInv := dexec_DInv g runB sched (dinit g []) (dinit_DInv g [])
  obtain ⟨ag, r, h1, h2⟩ := hInv.c2d id h
  exact ⟨r, h2, ag, h1⟩

/-- C9 witness: after schedule `[A, A]` on the graph `A ← B`, A is completed
and its result is readable. -/
theorem c9_witness :
    ("A" ∈ (dexec gAB runAB ["A", "A"] (dinit gAB [])).completed) ∧
    ∃ r, alook (dexec gAB runAB ["A", "A"] (dinit gAB [])).results "A" = some r ∧
      ∃ ag, alook (dexec gAB runAB ["A", "A"] (dinit gAB [])).phases "A" =
        some (DPhase.done ag r) :=
  ⟨by decide, c9_completed_subset_results gAB runAB ["A", "A"] "A" (by decide)⟩

/-- C8: for every acyclic dependency graph (witnessed by a rank function)
whose dependencies all name submitted TaskIds and whose units' `run()` calls
return normally, `spawn_with_dependencies` terminates (some fuel suffices for
the FIFO event loop) and returns a mapping whose key set equals exactly the
submitted TaskId set, with each task run exactly once (no duplicate keys). -/
theorem c8_full_coverage (g : List (String × TaskSpec))
    (runB : String → Except String SubAgentResult) (rank : String → Nat)
    (hnodup : (keysOf g).Nodup)
    (hrank : ∀ p ∈ g, ∀ d ∈ (p.2.dependencies.getD []), rank d < rank p.1)
    (hvalid : ∀ p ∈ g, ∀ d ∈ (p.2.dependencies.getD []), d ∈ keysOf g)
    (hok : ∀ i ∈ keysOf g, (runB i).isOk = true) :
    ∃ fuel m, spawn_with_dependencies g runB fuel = some (.ok m) ∧
      (∀ id, id ∈ keysOf m ↔ id ∈ keysOf g) ∧ (keysOf m).Nodup := by
  obtain ⟨hInv, hOk, hfin⟩ := deps_all_finished g runB rank (rankMax rank (keysOf g) + 1)
    hrank hvalid hok
    (fun id hid => by have := le_rankMax rank (keysOf g) id hid; omega)
  refine ⟨rankMax rank (keysOf g) + 1,
    (drounds g runB (rankMax rank (keysOf g) + 1) (dinit g [])).results, ?_, ?_,
    hInv.rkeys_nodup⟩
  · apply spawn_deps_eq_ok
    · exact hOk.err_none
    · exact List.all_eq_true.mpr (fun id hid => hfin id hid)
  · intro id
    constructor
    · intro hm
      obtain ⟨r, hr2⟩ := alook_isSome_of_mem _ id hm
      have hc := hInv.r2c id r hr2
      obtain ⟨ag, r0, hph, _⟩ := hInv.c2d id hc
      have hmem := mem_keys_of_alook_some _ id _ hph
      rw [hInv.keys_eq] at hmem
      exact hmem
    · intro hg2
      obtain ⟨ag, r, hph⟩ := finished_is_done _ id (hfin id hg2)
        (fun ag e => hOk.no_failed id ag e)
      have hres := (hInv.d2c id ag r hph).2
      exact mem_keys_of_alook_some _ id r hres

/-- C8 witness: the two-task graph `A ← B` with rank A=0, B=1 and normal
runs. -/
theorem c8_witness :
    ((keysOf gAB).Nodup ∧
     (∀ p ∈ gAB, ∀ d ∈ (p.2.dependencies.getD []), rankAB d < rankAB p.1) ∧
     (∀ p ∈ gAB, ∀ d ∈ (p.2.dependencies.getD []), d ∈ keysOf gAB) ∧
     (∀ i ∈ keysOf gAB, (runAB i).isOk = true)) ∧
    ∃ fuel m, spawn_with_dependencies gAB runAB fuel = some (.ok m) ∧
      (∀ id, id ∈ keysOf m ↔ id ∈ keysOf gAB) ∧ (keysOf m).Nodup := by
  refine ⟨⟨by decide, by decide, by decide, by decide⟩, ?_⟩
  exact c8_full_coverage gAB runAB rankAB (by decide) (by decide) (by decide) (by decide)

/-- C10: for a TaskSpec lacking a `description` key, `spawn_parallel` and
`spawn_sequential` hand the factory the value of the `task` key (or the
empty string if that is also absent) as the task description, whereas
`spawn_with_dependencies` hands it the empty string without consulting any
`task` key — so the accepted input shape differs between the dependency
strategy and the other two (witnessed by a concrete spec on which they
disagree). -/
theorem c10_description_defaulting (tasks : List TaskSpec) (i : Nat) (spec : TaskSpec)
    (fErr : Nat → Option String) (runsS : Nat → Except String SubAgentResult)
    (g : List (String × TaskSpec)) (runB : String → Except String SubAgentResult)
    (s : DepsState) (id : String) (dspec : TaskSpec)
    (hdesc : spec.description = none)
    (hget : tasks.get? i = some spec)
    (hfc : ∀ j, j < tasks.length → fErr j = none)
    (hrS : ∀ j, j < tasks.length → (runsS j).isOk = true)
    (hddesc : dspec.description = none)
    (hgid : alook g id = some dspec)
    (hpoll : alook s.phases id = some DPhase.polling)
    (hready : depsReady dspec s.completed = true) :
    (∃ ags reg, createLoop fErr tasks 0 [] [] = .ok (ags, reg) ∧
      ags.get? i = some (parAgentOf spec (spec.context.getD "")) ∧
      (parAgentOf spec (spec.context.getD "")).task = spec.task.getD "") ∧
    (∃ c, (spawn_sequential noFail runsS tasks).calls.get? i = some c ∧
      c.task = spec.task.getD "") ∧
    (alook (dstep g runB s id).phases id =
      some (DPhase.running (depAgentOf dspec s.results)) ∧
      (depAgentOf dspec s.results).task = "") ∧
    ((parAgentOf specT "").task = "do the thing" ∧ (depAgentOf specT []).task = "" ∧
      "do the thing" ≠ "") := by
  refine ⟨?_, ?_, ?_, by decide, by decide, by decide⟩
  · refine ⟨tasks.map (fun s2 => parAgentOf s2 (s2.context.getD "")), expReg tasks 0,
      ?_, ?_, ?_⟩
    · simpa using createLoop_ok fErr tasks 0 [] [] (by simpa using hfc)
    · rw [List.get?_map, hget]
      rfl
    · simp [parAgentOf, hdesc]
  · have hseq := seqAux_ok noFail runsS tasks 0 "" [] []
      (fun j _ => rfl) (by simpa using hrS)
    unfold spawn_sequential
    rw [hseq]
    have hc := expCalls_get? runsS tasks 0 "" i spec hget
    refine ⟨{ task := spec.description.getD (spec.task.getD ""),
              model := spec.model,
              context := "" ++ chainFrom runsS 0 i ++ "\n\n" ++ spec.context.getD "",
              regAtRun := [("agent_" ++ toString (0 + i),
                parAgentOf spec
                  ("" ++ chainFrom runsS 0 i ++ "\n\n" ++ spec.context.getD ""))] },
      ?_, ?_⟩
    · show ([] ++ expCalls runsS tasks 0 "").get? i = _
      simp only [List.nil_append]
      exact hc
    · simp [hdesc]
  · constructor
    · rw [dstep_eq_start g runB s id dspec hpoll hgid hready]
      exact alook_setPhase_self _ _ _ _ hpoll
    · simp [depAgentOf, hddesc]

/-- C10 witness: the concrete spec with only a `task` key. -/
theorem c10_witness :
    (specT.description = none) ∧
    ((parAgentOf specT "").task = "do the thing" ∧ (depAgentOf specT []).task = "" ∧
      "do the thing" ≠ "") ∧
    alook (dstep gT okRunB (dinit gT []) "T").phases "T" =
      some (DPhase.running (depAgentOf specT (dinit gT []).results)) := by
  have h := c10_description_defaulting [specT] 0 specT noFail okRun gT okRunB
    (dinit gT []) "T" specT (by decide) rfl (by decide) (by decide) (by decide)
    (by decide) (by decide) (by decide)
  exact ⟨by decide, h.2.2.2, h.2.2.1.1⟩


end Spawner
